import Mathlib

/-!
# Kyber reference layer of `kyber-tweaks`: codec and noise samplers

Shallow embedding of `kyber/ref/poly.c` and `kyber/ref/cbd.c`.

* A `poly` is the list of its `int16_t` coefficients, read with `coeffs`.
* A byte array is a list of naturals, read with `byte`; a well-formed byte
  array holds values below 256.
* Every `#if` branch of the source becomes its own definition, and the
  `#if` chain itself becomes a function of the build constant.
* C integer conversions are explicit: `u8`, `u16`, `u32` reduce modulo the
  width, `i16` is the two's complement reading of 16 bits.
-/

namespace Kyber

/-! ## Parameters and machine integers -/

/-- Modelled from the spec: `params.h` is not among the sources. The ring
degree is the spec's N = 256. -/
def KYBER_N : Nat := 256

/-- Modelled from the spec: `params.h` is not among the sources. The modulus
is the prime 3329, the value the constants of `poly.c` are built from
(1664 = q/2, 1665 = (q+1)/2, 80635 = ceil(2^28 / q)). -/
def KYBER_Q : Nat := 3329

/-- A polynomial: the contents of `int16_t coeffs[KYBER_N]`. -/
abbrev poly := List Int

/-- Read `a->coeffs[k]`. -/
def coeffs (a : poly) (k : Nat) : Int := a.getD k 0

/-- Read `a[k]` of a byte array. -/
def byte (a : List Nat) (k : Nat) : Nat := a.getD k 0

/-- Conversion to `uint8_t`. -/
def u8 (n : Nat) : Nat := n % 2 ^ 8

/-- Conversion of a C `int` to `uint16_t`. -/
def u16 (z : Int) : Nat := (z % 2 ^ 16).toNat

/-- Conversion of a C `int` to `uint32_t`. -/
def u32 (z : Int) : Nat := (z % 2 ^ 32).toNat

/-- Conversion of a C `int` to `int16_t` (two's complement). -/
def i16 (z : Int) : Int := (z + 2 ^ 15) % 2 ^ 16 - 2 ^ 15

/-- The expression `(u >> 15) & KYBER_Q` for an `int16_t` value `u`: the
arithmetic shift gives 0 or -1, whose 32-bit pattern is and-ed with q. -/
def sign_and_q (u : Int) : Int := ((u32 (u >>> (15 : Nat)) &&& KYBER_Q : Nat) : Int)

/-- The statement `u += (u >> 15) & KYBER_Q;` on an `int16_t`
("map to positive standard representatives"). -/
def to_positive (u : Int) : Int := i16 (u + sign_and_q u)

/-- The four statements `d0 = u << l; d0 += add; d0 *= mul; d0 >>= r;` on the
`uint32_t d0`, for an `int16_t` value `u`. -/
def mul_shift (u : Int) (l add mul r : Nat) : Nat :=
  let d0 := u32 (u * 2 ^ l)
  let d0 := (d0 + add) % 2 ^ 32
  let d0 := (d0 * mul) % 2 ^ 32
  d0 >>> r

/-! ## `poly_compress`, one definition per `#if` branch -/

/-- Branch `KYBER_POLYCOMPRESSEDBYTES == 128`: 4 bits per coefficient. -/
def poly_compress_128 (a : poly) : List Nat :=
  (List.range (KYBER_N / 8)).flatMap fun i =>
    let t : Nat → Nat := fun j =>
      u8 (mul_shift (to_positive (coeffs a (8 * i + j))) 4 1665 80635 28 &&& 0xf)
    [ u8 (t 0 ||| (t 1 <<< 4)),
      u8 (t 2 ||| (t 3 <<< 4)),
      u8 (t 4 ||| (t 5 <<< 4)),
      u8 (t 6 ||| (t 7 <<< 4)) ]

/-- Branch `KYBER_POLYCOMPRESSEDBYTES == 160`: 5 bits per coefficient. -/
def poly_compress_160 (a : poly) : List Nat :=
  (List.range (KYBER_N / 8)).flatMap fun i =>
    let t : Nat → Nat := fun j =>
      u8 (mul_shift (to_positive (coeffs a (8 * i + j))) 5 1664 40318 27 &&& 0x1f)
    [ u8 ((t 0 >>> 0) ||| (t 1 <<< 5)),
      u8 ((t 1 >>> 3) ||| (t 2 <<< 2) ||| (t 3 <<< 7)),
      u8 ((t 3 >>> 1) ||| (t 4 <<< 4)),
      u8 ((t 4 >>> 4) ||| (t 5 <<< 1) ||| (t 6 <<< 6)),
      u8 ((t 6 >>> 2) ||| (t 7 <<< 3)) ]

/-- Branch `KYBER_POLYCOMPRESSEDBYTES == 96`: 3 bits per coefficient. -/
def poly_compress_96 (a : poly) : List Nat :=
  (List.range (KYBER_N / 8)).flatMap fun i =>
    let t : Nat → Nat := fun j =>
      u8 (mul_shift (to_positive (coeffs a (8 * i + j))) 3 1664 161271 29 &&& 0x7)
    [ u8 (t 0 ||| (t 1 <<< 3) ||| (t 2 <<< 6)),
      u8 ((t 2 >>> 2) ||| (t 3 <<< 1) ||| (t 4 <<< 4) ||| (t 5 <<< 7)),
      u8 ((t 5 >>> 1) ||| (t 6 <<< 2) ||| (t 7 <<< 5)) ]

/-- Branch `KYBER_POLYCOMPRESSEDBYTES == 192`: 6 bits per coefficient. -/
def poly_compress_192 (a : poly) : List Nat :=
  (List.range (KYBER_N / 4)).flatMap fun i =>
    let t : Nat → Nat := fun j =>
      u8 (mul_shift (to_positive (coeffs a (4 * i + j))) 6 1664 20159 26 &&& 0x3f)
    [ u8 (t 0 ||| (t 1 <<< 6)),
      u8 ((t 1 >>> 2) ||| (t 2 <<< 4)),
      u8 ((t 2 >>> 4) ||| (t 3 <<< 2)) ]

/-- Branch `KYBER_POLYCOMPRESSEDBYTES == 200`: 5 bits for coefficients 0-3
and 7 bits for coefficients 4-7 of each group of eight. The list holds the
bytes the loop writes, in order (`r[0..4]`, then `r += 5`). -/
def poly_compress_200 (a : poly) : List Nat :=
  (List.range (KYBER_N / 8)).flatMap fun i =>
    let t : Nat → Nat := fun j =>
      if j < 4 then
        u8 (mul_shift (to_positive (coeffs a (8 * i + j))) 5 1664 40318 27 &&& 0x1f)
      else
        u8 (mul_shift (to_positive (coeffs a (8 * i + (j - 4) + 4))) 7 1664 10079 25 &&& 0x7f)
    [ u8 (t 0 ||| (t 1 <<< 5)),
      u8 ((t 1 >>> 3) ||| (t 2 <<< 2) ||| (t 3 <<< 7)),
      u8 ((t 3 >>> 1) ||| (t 4 <<< 4)),
      u8 ((t 4 >>> 3) ||| (t 5 <<< 4)),
      u8 ((t 5 >>> 3) ||| (t 6 <<< 4)) ]

/-- The `#if` chain of `poly_compress`: the build constant selects the
branch; any other value is the `#error` case, where no program exists. -/
def poly_compress (KYBER_POLYCOMPRESSEDBYTES : Nat) (a : poly) : List Nat :=
  if KYBER_POLYCOMPRESSEDBYTES = 128 then poly_compress_128 a
  else if KYBER_POLYCOMPRESSEDBYTES = 160 then poly_compress_160 a
  else if KYBER_POLYCOMPRESSEDBYTES = 96 then poly_compress_96 a
  else if KYBER_POLYCOMPRESSEDBYTES = 192 then poly_compress_192 a
  else if KYBER_POLYCOMPRESSEDBYTES = 200 then poly_compress_200 a
  else []

/-! ## `poly_decompress`, one definition per `#if` branch

The stored values are at most `(127 * q + 64) >> 7 < 2^15` for bytes below
256, so the store to `int16_t` is written without a conversion. -/

/-- Branch `KYBER_POLYCOMPRESSEDBYTES == 128`. -/
def poly_decompress_128 (a : List Nat) : poly :=
  (List.range (KYBER_N / 2)).flatMap fun i =>
    let a0 := byte a i
    [ (((((a0 &&& 15) % 2 ^ 16) * KYBER_Q + 8) >>> 4 : Nat) : Int),
      (((((a0 >>> 4) % 2 ^ 16) * KYBER_Q + 8) >>> 4 : Nat) : Int) ]

/-- Branch `KYBER_POLYCOMPRESSEDBYTES == 160`. -/
def poly_decompress_160 (a : List Nat) : poly :=
  (List.range (KYBER_N / 8)).flatMap fun i =>
    let a0 := byte a (5 * i + 0)
    let a1 := byte a (5 * i + 1)
    let a2 := byte a (5 * i + 2)
    let a3 := byte a (5 * i + 3)
    let a4 := byte a (5 * i + 4)
    let t : List Nat :=
      [ u8 (a0 >>> 0),
        u8 ((a0 >>> 5) ||| (a1 <<< 3)),
        u8 (a1 >>> 2),
        u8 ((a1 >>> 7) ||| (a2 <<< 1)),
        u8 ((a2 >>> 4) ||| (a3 <<< 4)),
        u8 (a3 >>> 1),
        u8 ((a3 >>> 6) ||| (a4 <<< 2)),
        u8 (a4 >>> 3) ]
    (List.range 8).map fun j =>
      (((((t.getD j 0 &&& 31) * KYBER_Q + 16) % 2 ^ 32) >>> 5 : Nat) : Int)

/-- Branch `KYBER_POLYCOMPRESSEDBYTES == 96`. -/
def poly_decompress_96 (a : List Nat) : poly :=
  (List.range (KYBER_N / 8)).flatMap fun i =>
    let a0 := byte a (3 * i + 0)
    let a1 := byte a (3 * i + 1)
    let a2 := byte a (3 * i + 2)
    [ ((((a0 &&& 7) * KYBER_Q + 4) >>> 3 : Nat) : Int),
      (((((a0 >>> 3) &&& 7) * KYBER_Q + 4) >>> 3 : Nat) : Int),
      (((((a0 >>> 6) ||| ((a1 &&& 1) <<< 2)) * KYBER_Q + 4) >>> 3 : Nat) : Int),
      (((((a1 >>> 1) &&& 7) * KYBER_Q + 4) >>> 3 : Nat) : Int),
      (((((a1 >>> 4) &&& 7) * KYBER_Q + 4) >>> 3 : Nat) : Int),
      (((((a1 >>> 7) ||| ((a2 &&& 3) <<< 1)) * KYBER_Q + 4) >>> 3 : Nat) : Int),
      (((((a2 >>> 2) &&& 7) * KYBER_Q + 4) >>> 3 : Nat) : Int),
      (((((a2 >>> 5) &&& 7) * KYBER_Q + 4) >>> 3 : Nat) : Int) ]

/-- Branch `KYBER_POLYCOMPRESSEDBYTES == 192`. -/
def poly_decompress_192 (a : List Nat) : poly :=
  (List.range (KYBER_N / 4)).flatMap fun i =>
    let a0 := byte a (3 * i + 0)
    let a1 := byte a (3 * i + 1)
    let a2 := byte a (3 * i + 2)
    [ ((((a0 &&& 63) * KYBER_Q + 32) >>> 6 : Nat) : Int),
      (((((a0 >>> 6) ||| ((a1 &&& 15) <<< 2)) * KYBER_Q + 32) >>> 6 : Nat) : Int),
      (((((a1 >>> 4) ||| ((a2 &&& 3) <<< 4)) * KYBER_Q + 32) >>> 6 : Nat) : Int),
      ((((a2 >>> 2) * KYBER_Q + 32) >>> 6 : Nat) : Int) ]

/-- Branch `KYBER_POLYCOMPRESSEDBYTES == 200`. -/
def poly_decompress_200 (a : List Nat) : poly :=
  (List.range (KYBER_N / 8)).flatMap fun i =>
    let a0 := byte a (5 * i + 0)
    let a1 := byte a (5 * i + 1)
    let a2 := byte a (5 * i + 2)
    let a3 := byte a (5 * i + 3)
    let a4 := byte a (5 * i + 4)
    [ ((((a0 &&& 31) * KYBER_Q + 16) >>> 5 : Nat) : Int),
      (((((a0 >>> 5) ||| ((a1 &&& 3) <<< 3)) * KYBER_Q + 16) >>> 5 : Nat) : Int),
      (((((a1 >>> 2) &&& 31) * KYBER_Q + 16) >>> 5 : Nat) : Int),
      (((((a1 >>> 7) ||| ((a2 &&& 15) <<< 1)) * KYBER_Q + 16) >>> 5 : Nat) : Int),
      (((((a2 >>> 4) ||| ((a3 &&& 1) <<< 4)) * KYBER_Q + 64) >>> 7 : Nat) : Int),
      (((((a3 >>> 1) &&& 127) * KYBER_Q + 64) >>> 7 : Nat) : Int),
      (((((a3 >>> 8) ||| ((a4 &&& 15) <<< 1)) * KYBER_Q + 64) >>> 7 : Nat) : Int),
      ((((a4 >>> 4) * KYBER_Q + 64) >>> 7 : Nat) : Int) ]

/-- The `#if` chain of `poly_decompress`. -/
def poly_decompress (KYBER_POLYCOMPRESSEDBYTES : Nat) (a : List Nat) : poly :=
  if KYBER_POLYCOMPRESSEDBYTES = 128 then poly_decompress_128 a
  else if KYBER_POLYCOMPRESSEDBYTES = 160 then poly_decompress_160 a
  else if KYBER_POLYCOMPRESSEDBYTES = 96 then poly_decompress_96 a
  else if KYBER_POLYCOMPRESSEDBYTES = 192 then poly_decompress_192 a
  else if KYBER_POLYCOMPRESSEDBYTES = 200 then poly_decompress_200 a
  else []

/-! ## `poly_tobytes` and `poly_frombytes` -/

/-- Serialization of a polynomial, 12 bits per coefficient. `t0` and `t1`
are `uint16_t`; `t0 += ((int16_t)t0 >> 15) & KYBER_Q` wraps modulo 2^16. -/
def poly_tobytes (a : poly) : List Nat :=
  (List.range (KYBER_N / 2)).flatMap fun i =>
    let t0 := u16 (coeffs a (2 * i))
    let t0 := u16 ((t0 : Int) + sign_and_q (i16 t0))
    let t1 := u16 (coeffs a (2 * i + 1))
    let t1 := u16 ((t1 : Int) + sign_and_q (i16 t1))
    [ u8 (t0 >>> 0),
      u8 ((t0 >>> 8) ||| (t1 <<< 4)),
      u8 (t1 >>> 4) ]

/-- De-serialization of a polynomial. The stored values are below 2^12, so
the store to `int16_t` is written without a conversion. -/
def poly_frombytes (a : List Nat) : poly :=
  (List.range (KYBER_N / 2)).flatMap fun i =>
    [ ((((byte a (3 * i + 0) >>> 0) ||| ((byte a (3 * i + 1) % 2 ^ 16) <<< 8)) &&& 0xFFF : Nat) : Int),
      ((((byte a (3 * i + 1) >>> 4) ||| ((byte a (3 * i + 2) % 2 ^ 16) <<< 4)) &&& 0xFFF : Nat) : Int) ]

/-! ## `cbd.c`: centered binomial samplers -/

/-- Load 4 bytes at `x = buf + off` into a `uint32_t`, little-endian. -/
def load32_littleendian (buf : List Nat) (off : Nat) : Nat :=
  let r := byte buf (off + 0) % 2 ^ 32
  let r := r ||| ((byte buf (off + 1) <<< 8) % 2 ^ 32)
  let r := r ||| ((byte buf (off + 2) <<< 16) % 2 ^ 32)
  let r := r ||| ((byte buf (off + 3) <<< 24) % 2 ^ 32)
  r

/-- Load 3 bytes at `x = buf + off` into a `uint32_t`, little-endian. -/
def load24_littleendian (buf : List Nat) (off : Nat) : Nat :=
  let r := byte buf (off + 0) % 2 ^ 32
  let r := r ||| ((byte buf (off + 1) <<< 8) % 2 ^ 32)
  let r := r ||| ((byte buf (off + 2) <<< 16) % 2 ^ 32)
  r

/-- Sampler `cbd2`. `a` and `b` are at most 3, so the `int16_t` stores are
exact. -/
def cbd2 (buf : List Nat) : poly :=
  (List.range (KYBER_N / 8)).flatMap fun i =>
    let t := load32_littleendian buf (4 * i)
    let d := t &&& 0x55555555
    let d := (d + ((t >>> 1) &&& 0x55555555)) % 2 ^ 32
    (List.range 8).map fun j =>
      let a : Int := (((d >>> (4 * j + 0)) &&& 0x3 : Nat) : Int)
      let b : Int := (((d >>> (4 * j + 2)) &&& 0x3 : Nat) : Int)
      a - b

/-- Sampler `cbd3`. -/
def cbd3 (buf : List Nat) : poly :=
  (List.range (KYBER_N / 4)).flatMap fun i =>
    let t := load24_littleendian buf (3 * i)
    let d := t &&& 0x00249249
    let d := (d + ((t >>> 1) &&& 0x00249249)) % 2 ^ 32
    let d := (d + ((t >>> 2) &&& 0x00249249)) % 2 ^ 32
    (List.range 4).map fun j =>
      let a : Int := (((d >>> (6 * j + 0)) &&& 0x7 : Nat) : Int)
      let b : Int := (((d >>> (6 * j + 3)) &&& 0x7 : Nat) : Int)
      a - b

/-- Sampler `cbd4`. -/
def cbd4 (buf : List Nat) : poly :=
  (List.range (KYBER_N / 4)).flatMap fun i =>
    let t := load32_littleendian buf (4 * i)
    let d := t &&& 0x0F0F0F0F
    let d := (d + ((t >>> 4) &&& 0x0F0F0F0F)) % 2 ^ 32
    (List.range 4).map fun j =>
      let a : Nat := (d >>> (8 * j)) &&& 0xF
      let b : Nat := (a &&& 0x3) + ((a >>> 2) &&& 0x3)
      let a : Nat := (a + 2) >>> 2
      (a : Int) - (b : Int)

/-- Sampler `cbd5`. -/
def cbd5 (buf : List Nat) : poly :=
  (List.range (KYBER_N / 8)).flatMap fun i =>
    (List.range 8).map fun j =>
      let offset := (5 * (8 * i + j)) / 8
      let shift := (5 * (8 * i + j)) % 8
      let t := byte buf offset >>> shift
      let t := if shift > 3 then t ||| ((byte buf (offset + 1) <<< (8 - shift)) % 2 ^ 32) else t
      let t := t &&& 0x1F
      let a : Nat := (t &&& 1) + ((t >>> 1) &&& 1) + ((t >>> 2) &&& 1)
      let b : Nat := ((t >>> 3) &&& 1) + ((t >>> 4) &&& 1)
      (a : Int) - (b : Int)

/-- The `#if` chain of `poly_cbd_eta1` on the build constant `KYBER_ETA1`;
any other value is the `#error` case. -/
def poly_cbd_eta1 (KYBER_ETA1 : Nat) (buf : List Nat) : poly :=
  if KYBER_ETA1 = 2 then cbd2 buf
  else if KYBER_ETA1 = 3 then cbd3 buf
  else if KYBER_ETA1 = 4 then cbd4 buf
  else if KYBER_ETA1 = 5 then cbd5 buf
  else []

/-! ## Vocabulary of the specification -/

/-- A byte array of `n` bytes. -/
def is_bytes (a : List Nat) (n : Nat) : Prop := a.length = n ∧ ∀ b ∈ a, b < 256

instance (a : List Nat) (n : Nat) : Decidable (is_bytes a n) := by
  unfold is_bytes; infer_instance

/-- A polynomial (256 coefficients) with every coefficient in `[lo, hi)`. -/
def coeffs_in (x : poly) (lo hi : Int) : Prop :=
  x.length = KYBER_N ∧ ∀ c ∈ x, lo ≤ c ∧ c < hi

instance (x : poly) (lo hi : Int) : Decidable (coeffs_in x lo hi) := by
  unfold coeffs_in; infer_instance

/-- Bit `n` of a byte array read as a little-endian bit stream. -/
def stream_bit (a : List Nat) (n : Nat) : Nat := (byte a (n / 8) >>> (n % 8)) % 2

/-- The `d`-bit little-endian field of the bit stream at bit offset `off`. -/
def stream_field (a : List Nat) (off d : Nat) : Nat :=
  ((List.range d).map fun b => stream_bit a (off + b) * 2 ^ b).sum

/-- Hamming weight of the `len` stream bits starting at bit `start`. -/
def hamming_weight (a : List Nat) (start len : Nat) : Nat :=
  ((List.range len).map fun b => stream_bit a (start + b)).sum

/-- Nearest integer to `n / m`. -/
def round_div (n m : Nat) : Nat := (2 * n + m) / (2 * m)

/-- Centered residue modulo q: the representative in `[-(q-1)/2, (q-1)/2]`. -/
def centered_mod (z : Int) : Int :=
  let r := z % (KYBER_Q : Int)
  if r ≤ ((KYBER_Q / 2 : Nat) : Int) then r else r - (KYBER_Q : Int)

/-- Canonical representative in `[0, q)` of a value in `(-q, q)`. -/
def canonical (c : Int) : Int := if 0 ≤ c then c else c + (KYBER_Q : Int)

/-! ## The packing steps of `poly_compress`, named for the proofs -/

/-- The four byte stores of the 128 branch, for codes `t`. -/
def pack_128 (t : Nat → Nat) : List Nat :=
  [ u8 (t 0 ||| (t 1 <<< 4)),
    u8 (t 2 ||| (t 3 <<< 4)),
    u8 (t 4 ||| (t 5 <<< 4)),
    u8 (t 6 ||| (t 7 <<< 4)) ]

/-- The five byte stores of the 160 branch, for codes `t`. -/
def pack_160 (t : Nat → Nat) : List Nat :=
  [ u8 ((t 0 >>> 0) ||| (t 1 <<< 5)),
    u8 ((t 1 >>> 3) ||| (t 2 <<< 2) ||| (t 3 <<< 7)),
    u8 ((t 3 >>> 1) ||| (t 4 <<< 4)),
    u8 ((t 4 >>> 4) ||| (t 5 <<< 1) ||| (t 6 <<< 6)),
    u8 ((t 6 >>> 2) ||| (t 7 <<< 3)) ]

/-- The three byte stores of the 96 branch, for codes `t`. -/
def pack_96 (t : Nat → Nat) : List Nat :=
  [ u8 (t 0 ||| (t 1 <<< 3) ||| (t 2 <<< 6)),
    u8 ((t 2 >>> 2) ||| (t 3 <<< 1) ||| (t 4 <<< 4) ||| (t 5 <<< 7)),
    u8 ((t 5 >>> 1) ||| (t 6 <<< 2) ||| (t 7 <<< 5)) ]

/-- The three byte stores of the 192 branch, for codes `t`. -/
def pack_192 (t : Nat → Nat) : List Nat :=
  [ u8 (t 0 ||| (t 1 <<< 6)),
    u8 ((t 1 >>> 2) ||| (t 2 <<< 4)),
    u8 ((t 2 >>> 4) ||| (t 3 <<< 2)) ]

/-- The code `poly_compress` computes for one coefficient in the build of
width `d` (the body of the inner `for` loop). -/
def compress_code (d : Nat) (c : Int) : Nat :=
  if d = 4 then u8 (mul_shift (to_positive c) 4 1665 80635 28 &&& 0xf)
  else if d = 5 then u8 (mul_shift (to_positive c) 5 1664 40318 27 &&& 0x1f)
  else if d = 3 then u8 (mul_shift (to_positive c) 3 1664 161271 29 &&& 0x7)
  else if d = 6 then u8 (mul_shift (to_positive c) 6 1664 20159 26 &&& 0x3f)
  else 0

/-- The value `poly_decompress` stores for a `d`-bit code `c`. -/
def decompress_code (d : Nat) (c : Nat) : Int := (((c * KYBER_Q + 2 ^ (d - 1)) >>> d : Nat) : Int)

/-! ## Sample inputs -/

/-- A polynomial with coefficients `13 * k`, all in `[0, q)`. -/
def sample_poly : poly := (List.range 256).map fun k => ((13 * k : Nat) : Int)

/-- A polynomial with coefficients `13 * k - 3000`, all in `(-q, q)`. -/
def sample_signed_poly : poly := (List.range 256).map fun k => ((13 * k : Nat) : Int) - 3000

/-- The polynomial whose coefficient 7 is 1000 and whose other coefficients
are 0. -/
def sample_poly_7 : poly := [0, 0, 0, 0, 0, 0, 0, 1000] ++ List.replicate 248 0

/-- A buffer of `n` bytes with byte `k` equal to `(37 * k + 11) mod 256`. -/
def sample_bytes (n : Nat) : List Nat := (List.range n).map fun k => (37 * k + 11) % 256

/-! ## Uniform blocks for the samplers -/

/-- The buffer of `n` bytes holding the little-endian number `v`. -/
def block_buffer (n v : Nat) : List Nat := (List.range n).map fun k => (v >>> (8 * k)) % 256

/-- Sum of `f v` over the values `v` below the bound. -/
def sum_below (f : Nat → Int) : Nat → Int
  | 0 => 0
  | n + 1 => sum_below f n + f n

/-! ## Bounded exhaustive checks -/

/-- The check `p` holds at every natural number below the bound. -/
def all_below (p : Nat → Bool) : Nat → Bool
  | 0 => true
  | n + 1 => p n && all_below p n

/-! ## `poly_tomsg`, `poly_add`, `poly_sub` -/

/-- The message bit `poly_tomsg` derives from one coefficient: the
statements from `t = a->coeffs[8*i+j]` to `t &= 1` on the `uint32_t t`. -/
def tomsg_bit (c : Int) : Nat :=
  let t := u32 c
  let t := (t <<< 1) % 2 ^ 32
  let t := (t + 1665) % 2 ^ 32
  let t := (t * 80635) % 2 ^ 32
  let t := t >>> 28
  t &&& 1

/-- Convert polynomial to 32-byte message: `msg[i] = 0`, then
`msg[i] |= t << j` for `j = 0..7`, stored to the `uint8_t msg[i]`. -/
def poly_tomsg (a : poly) : List Nat :=
  (List.range (KYBER_N / 8)).map fun i =>
    (List.range 8).foldl
      (fun msg j => u8 (msg ||| (tomsg_bit (coeffs a (8 * i + j)) <<< j))) 0

/-- Add two polynomials; the sum of two `int16_t` is stored to an
`int16_t`. -/
def poly_add (a b : poly) : poly :=
  (List.range KYBER_N).map fun i => i16 (coeffs a i + coeffs b i)

/-- Subtract two polynomials. -/
def poly_sub (a b : poly) : poly :=
  (List.range KYBER_N).map fun i => i16 (coeffs a i - coeffs b i)

/-! ## The codes of the 200 branch of `poly_compress` -/

/-- The code `t[j]` the 200 branch computes for coefficient `j < 4` of a
group (first inner loop, 5 bits). -/
def compress_code_200_low (c : Int) : Nat :=
  u8 (mul_shift (to_positive c) 5 1664 40318 27 &&& 0x1f)

/-- The code `t[j+4]` the 200 branch computes for coefficient `j + 4` of a
group (second inner loop, 7 bits). -/
def compress_code_200_high (c : Int) : Nat :=
  u8 (mul_shift (to_positive c) 7 1664 10079 25 &&& 0x7f)

/-- The polynomial whose coefficient 4 is 2900 and whose other coefficients
are 0. -/
def sample_poly_4 : poly := [0, 0, 0, 0, 2900] ++ List.replicate 251 0

/-! ## `poly_frommsg`, the reference of `poly_tomsg`, `poly_basemul_montgomery` -/

/-- Modelled from the spec: `verify.c` is not among the sources.
`cmov_int16(r, v, b)` sets `*r` to `v` if `b` is 1 and leaves it unchanged
otherwise. -/
def cmov_int16 (r v : Int) (b : Nat) : Int := if b = 1 then v else r

/-- Convert 32-byte message to polynomial: `r->coeffs[8*i+j] = 0`, then
`cmov_int16(r->coeffs+8*i+j, ((KYBER_Q+1)/2), (msg[i] >> j)&1)`. -/
def poly_frommsg (msg : List Nat) : poly :=
  (List.range (KYBER_N / 8)).flatMap fun i =>
    (List.range 8).map fun j =>
      cmov_int16 0 (((KYBER_Q + 1) / 2 : Nat) : Int) ((byte msg i >>> j) &&& 1)

/-- The computation that `poly_tomsg` keeps as a comment, on the
`uint32_t t` loaded from the coefficient:
`t += ((int16_t)t >> 15) & KYBER_Q; t = (((t << 1) + KYBER_Q/2)/KYBER_Q) & 1`. -/
def tomsg_reference (c : Int) : Nat :=
  let t := u32 c
  let t := u32 ((t : Int) + sign_and_q (i16 t))
  (((((t <<< 1) % 2 ^ 32) + KYBER_Q / 2) % 2 ^ 32) / KYBER_Q) &&& 1

/-- Multiplication of two polynomials in NTT domain. `basemul` (of `ntt.c`)
and the table `zetas` are not among the sources and are parameters:
`basemul a0 a1 b0 b1 zeta` is the pair written to `r[0]`, `r[1]`. The
argument `-zetas[64+i]` is converted to the `int16_t` parameter. -/
def poly_basemul_montgomery (basemul : Int → Int → Int → Int → Int → Int × Int)
    (zetas : Nat → Int) (a b : poly) : poly :=
  (List.range (KYBER_N / 4)).flatMap fun i =>
    let r01 := basemul (coeffs a (4 * i)) (coeffs a (4 * i + 1))
      (coeffs b (4 * i)) (coeffs b (4 * i + 1)) (zetas (64 + i))
    let r23 := basemul (coeffs a (4 * i + 2)) (coeffs a (4 * i + 2 + 1))
      (coeffs b (4 * i + 2)) (coeffs b (4 * i + 2 + 1)) (i16 (-zetas (64 + i)))
    [r01.1, r01.2, r23.1, r23.2]

/-- The value of a `cbd4` coefficient as a function of
(low nibble + high nibble) mod 4. -/
def cbd4_of_residue (r : Nat) : Int :=
  if r = 0 then 0 else if r = 3 then -2 else -1

/-- The indices of `buf` that `cbd5` reads, in loop order: `buf[offset]`,
and `buf[offset+1]` when `shift > 3`. -/
def cbd5_reads : List Nat :=
  (List.range (KYBER_N / 8)).flatMap fun i =>
    (List.range 8).flatMap fun j =>
      let offset := (5 * (8 * i + j)) / 8
      let shift := (5 * (8 * i + j)) % 8
      if shift > 3 then [offset, offset + 1] else [offset]

/-- A sample `basemul`: the product of `a0 + a1 X` and `b0 + b1 X` modulo
`X^2 - zeta`, without reduction. -/
def sample_basemul (a0 a1 b0 b1 zeta : Int) : Int × Int :=
  (a0 * b0 + a1 * b1 * zeta, a0 * b1 + a1 * b0)

/-- A sample table: entry `k` is `k - 60`. -/
def sample_zetas (k : Nat) : Int := (k : Int) - 60

/-! ## The Kyber command-line tools

`CRYPTO_SECRETKEYBYTES`, `CRYPTO_CIPHERTEXTBYTES` and `CRYPTO_PUBLICKEYBYTES`
come from headers that are not among the sources; they are parameters. A
file is `none` when it cannot be opened and `some bytes` otherwise. -/

/-- File helper `read_from_file`: `fread(data, 1, max_len, fp)` stores at most
`max_len` bytes and returns their count in `*actual_len`; the result is
`none` for the return value -1. -/
def read_from_file (file : Option (List Nat)) (max_len : Nat) : Option (List Nat × Nat) :=
  match file with
  | none => none
  | some content => some (content.take max_len, (content.take max_len).length)

/-- What a run of a Kyber tool did: its exit status, and the buffers it
passed to the core when it called it. -/
structure tool_run where
  exit_status : Int
  core_call : Option (List (List Nat))
deriving DecidableEq

/-- Tool `kyber_decrypt`, from "Read secret key" on, with both file names
given: the two reads with their size checks, the call
`crypto_kem_dec(ss, ct, sk)` and the output stage, which returns 1 only when
writing the result fails. -/
def kyber_decrypt_main (CRYPTO_SECRETKEYBYTES CRYPTO_CIPHERTEXTBYTES : Nat)
    (sk_file ct_file : Option (List Nat)) (write_ok : Bool) : tool_run :=
  match read_from_file sk_file CRYPTO_SECRETKEYBYTES with
  | none => ⟨1, none⟩
  | some (sk, sk_len) =>
    if sk_len ≠ CRYPTO_SECRETKEYBYTES then ⟨1, none⟩
    else
      match read_from_file ct_file CRYPTO_CIPHERTEXTBYTES with
      | none => ⟨1, none⟩
      | some (ct, ct_len) =>
        if ct_len ≠ CRYPTO_CIPHERTEXTBYTES then ⟨1, none⟩
        else ⟨if write_ok then 0 else 1, some [ct, sk]⟩

/-- Tool `kyber_encrypt`, from "Read public key" on, with the file name
given: the read with its size check, the call `crypto_kem_enc(ct, ss, pk)`
and the output stage. -/
def kyber_encrypt_main (CRYPTO_PUBLICKEYBYTES : Nat) (pk_file : Option (List Nat))
    (write_ok : Bool) : tool_run :=
  match read_from_file pk_file CRYPTO_PUBLICKEYBYTES with
  | none => ⟨1, none⟩
  | some (pk, pk_len) =>
    if pk_len ≠ CRYPTO_PUBLICKEYBYTES then ⟨1, none⟩
    else ⟨if write_ok then 0 else 1, some [pk]⟩

end Kyber

namespace Dilithium

/-! ## The Dilithium command-line layer: `common.c`, `implementations.c`,
`cli_sign.c` -/

/-- The signing routines of the core that the command-line layer can call.
Their code is not among the sources; here they are names only. -/
inductive core_sign where
  | pqcrystals_dilithium3_ref_signature
  | crypto_sign_signature_tweaked
  | crypto_sign_signature_tweaked_prob
deriving DecidableEq

/-- The three wrappers stored in the `.sign` field of the table. -/
inductive sign_wrapper where
  | sign_baseline
  | sign_tweaked
  | sign_tweaked_prob
deriving DecidableEq

/-- The core routine each wrapper calls. -/
def sign_wrapper.calls : sign_wrapper → core_sign
  | .sign_baseline => .pqcrystals_dilithium3_ref_signature
  | .sign_tweaked => .crypto_sign_signature_tweaked
  | .sign_tweaked_prob => .crypto_sign_signature_tweaked_prob

/-- Enumeration `implementation_mode_t`, as the integer values of its
constants. -/
def MODE_BASELINE : Int := 0

/-- Mode of the relaxed bounds. -/
def MODE_OPTION1 : Int := 1

/-- Mode of the probabilistic bypass. -/
def MODE_OPTION2 : Int := 2

/-- Structure `implementation_t`; the `.keypair` and `.verify` fields are the
same function in every entry and are left out. -/
structure implementation_t where
  name : String
  description : String
  mode : Int
  sign : sign_wrapper
deriving DecidableEq

/-- The table `implementations[3]`. -/
def implementations : List implementation_t :=
  [ { name := "baseline", description := "Original Dilithium-3",
      mode := MODE_BASELINE, sign := .sign_baseline },
    { name := "option1", description := "Tweaks 1+2+3 with relaxed bounds (2×BETA)",
      mode := MODE_OPTION1, sign := .sign_tweaked },
    { name := "option2", description := "Tweaks 1+2+3 with probabilistic bypass (10%)",
      mode := MODE_OPTION2, sign := .sign_tweaked_prob } ]

/-- Get implementation by mode; `none` is the `NULL` result. -/
def get_implementation (mode : Int) : Option implementation_t :=
  if mode ≥ 0 ∧ mode < 3 then implementations[mode.toNat]? else none

/-- Parse mode from string; `strcmp(..) == 0` is equality of the strings. -/
def parse_mode (str : String) : Int :=
  if str = "baseline" then MODE_BASELINE
  else if str = "option1" then MODE_OPTION1
  else if str = "option2" then MODE_OPTION2
  else -1

/-- What a run of `cli_sign` did: its exit status and the core routine it
called to produce the signature, if it got that far. -/
structure sign_run where
  exit_status : Int
  signer : Option core_sign
deriving DecidableEq

/-- Tool `cli_sign`, for a command line that gives the message and key
files and optionally `-m <mode>`: the mode check of `case 'm'`, the two
reads (`none` for a file that cannot be read), the key size check, the
signing call and the save of the signature. `CRYPTO_SECRETKEYBYTES` comes
from a header that is not among the sources. -/
def cli_sign_main (CRYPTO_SECRETKEYBYTES : Nat) (mode_arg : Option String)
    (message sk : Option (List Nat)) (sign_ok write_ok : Bool) : sign_run :=
  let mode : Int := match mode_arg with
    | none => MODE_BASELINE
    | some optarg => parse_mode optarg
  if mode = -1 then ⟨1, none⟩
  else
    match message with
    | none => ⟨1, none⟩
    | some _ =>
      match sk with
      | none => ⟨1, none⟩
      | some key =>
        if key.length ≠ CRYPTO_SECRETKEYBYTES then ⟨1, none⟩
        else if !sign_ok then ⟨1, some .pqcrystals_dilithium3_ref_signature⟩
        else ⟨if write_ok then 0 else 1, some .pqcrystals_dilithium3_ref_signature⟩

end Dilithium

namespace Kyber

/-! ## Lists written by a loop -/

theorem length_flatMap_range {α : Type} (f : Nat → List α) (m : Nat)
    (hf : ∀ i, (f i).length = m) (n : Nat) :
    ((List.range n).flatMap f).length = m * n := by
  induction n with
  | zero => simp
  | succ n ih => simp [List.range_succ, List.flatMap_append, ih, hf, Nat.mul_succ]

/-- Entry `m * i + c` of the list a loop of `n` rounds writes, `m` entries a
round, is entry `c` of round `i`. -/
theorem getD_flatMap_range {α : Type} (f : Nat → List α) (m : Nat)
    (hf : ∀ i, (f i).length = m) (dflt : α) (n i c : Nat) (hi : i < n) (hc : c < m) :
    ((List.range n).flatMap f).getD (m * i + c) dflt = (f i).getD c dflt := by
  induction n with
  | zero => omega
  | succ n ih =>
    have hlen := length_flatMap_range f m hf n
    rw [List.range_succ, List.flatMap_append]
    by_cases h : i < n
    · have hlt : m * i + c < ((List.range n).flatMap f).length := by
        rw [hlen]
        calc m * i + c < m * i + m := by omega
          _ = m * (i + 1) := by ring
          _ ≤ m * n := Nat.mul_le_mul_left m h
      rw [List.getD_append _ _ _ _ hlt]
      exact ih h
    · have hin : i = n := by omega
      subst hin
      rw [List.getD_append_right _ _ _ _ (by rw [hlen]; omega)]
      simp [hlen]

theorem getD_map_range {α : Type} (g : Nat → α) (dflt : α) (n j : Nat) (hj : j < n) :
    ((List.range n).map g).getD j dflt = g j := by
  rw [List.getD_eq_getElem?_getD, List.getElem?_map, List.getElem?_range hj]
  rfl

theorem byte_lt_of_forall_mem (a : List Nat) (h : ∀ b ∈ a, b < 256) (k : Nat) :
    byte a k < 256 := by
  unfold byte
  rw [List.getD_eq_getElem?_getD]
  by_cases hk : k < a.length
  · rw [List.getElem?_eq_getElem hk]
    exact h _ (List.getElem_mem hk)
  · rw [List.getElem?_eq_none (by omega)]
    decide

theorem byte_lt_of_is_bytes (a : List Nat) (n : Nat) (h : is_bytes a n) (k : Nat) :
    byte a k < 256 := byte_lt_of_forall_mem a h.2 k

theorem coeffs_of_coeffs_in (x : poly) (lo hi : Int) (h : coeffs_in x lo hi) (k : Nat)
    (hk : k < 256) : lo ≤ coeffs x k ∧ coeffs x k < hi := by
  unfold coeffs
  have hlen : k < x.length := by rw [h.1]; exact hk
  rw [List.getD_eq_getElem?_getD, List.getElem?_eq_getElem hlen]
  exact h.2 _ (List.getElem_mem hlen)

/-! ## Bit operations as arithmetic -/

theorem or_shl (a b i : Nat) (h : a < 2 ^ i) : a ||| (b <<< i) = a + b * 2 ^ i := by
  rw [Nat.shiftLeft_eq, Nat.mul_comm b, Nat.or_comm, ← Nat.mul_add_lt_is_or h, Nat.add_comm]

theorem and_1 (x : Nat) : x &&& 1 = x % 2 := Nat.and_pow_two_sub_one_eq_mod x 1
theorem and_3 (x : Nat) : x &&& 3 = x % 4 := Nat.and_pow_two_sub_one_eq_mod x 2
theorem and_7 (x : Nat) : x &&& 7 = x % 8 := Nat.and_pow_two_sub_one_eq_mod x 3
theorem and_15 (x : Nat) : x &&& 15 = x % 16 := Nat.and_pow_two_sub_one_eq_mod x 4
theorem and_31 (x : Nat) : x &&& 31 = x % 32 := Nat.and_pow_two_sub_one_eq_mod x 5
theorem and_63 (x : Nat) : x &&& 63 = x % 64 := Nat.and_pow_two_sub_one_eq_mod x 6
theorem and_127 (x : Nat) : x &&& 127 = x % 128 := Nat.and_pow_two_sub_one_eq_mod x 7
theorem and_4095 (x : Nat) : x &&& 4095 = x % 4096 := Nat.and_pow_two_sub_one_eq_mod x 12

/-- Stream bit `8 * m + c` lies in byte `m + c / 8`, at position `c % 8`. -/
theorem stream_bit_at (a : List Nat) (m c : Nat) :
    stream_bit a (8 * m + c) = (byte a (m + c / 8) / 2 ^ (c % 8)) % 2 := by
  simp [stream_bit, Nat.mul_add_div, Nat.mul_add_mod, Nat.shiftRight_eq_div_pow]

/-- A field that lies inside round `i` of a loop writing `m` bytes a round
can be read from that round's bytes alone. -/
theorem stream_field_flatMap (f : Nat → List Nat) (m : Nat) (hf : ∀ i, (f i).length = m)
    (n i o d : Nat) (hi : i < n) (ho : o + d ≤ 8 * m) :
    stream_field ((List.range n).flatMap f) (8 * (m * i) + o) d = stream_field (f i) o d := by
  unfold stream_field
  congr 1
  apply List.map_congr_left
  intro b hb
  have hb2 : b < d := List.mem_range.mp hb
  have e : 8 * (m * i) + o + b = 8 * (m * i) + (o + b) := by omega
  have e0 : o + b = 8 * 0 + (o + b) := by omega
  rw [e, stream_bit_at]
  conv_rhs => rw [e0, stream_bit_at]
  unfold byte
  rw [getD_flatMap_range f m hf 0 n i ((o + b) / 8) hi (by omega)]
  simp

/-- The `d` bits of `x` from bit `s`, weighted, add up to a quotient and
remainder. -/
theorem sum_bits_eq (x s d : Nat) :
    ((List.range d).map fun b => (x / 2 ^ (s + b)) % 2 * 2 ^ b).sum = (x / 2 ^ s) % 2 ^ d := by
  induction d with
  | zero => simp [Nat.mod_one]
  | succ d ih =>
    rw [List.range_succ, List.map_append, List.sum_append, ih, Nat.mod_pow_succ]
    simp only [List.map_cons, List.map_nil, List.sum_cons, List.sum_nil, Nat.add_zero,
      Nat.pow_add, Nat.div_div_eq_div_mul, Nat.mul_comm]

/-- A stream bit within two bytes of byte `m`, read from those two bytes. -/
theorem stream_bit_two_bytes (a : List Nat) (ha : ∀ k, byte a k < 256) (m c : Nat)
    (hc : c < 16) :
    stream_bit a (8 * m + c) = ((byte a m + 256 * byte a (m + 1)) / 2 ^ c) % 2 := by
  have h0 := ha m
  have h1 := ha (m + 1)
  rw [stream_bit_at]
  interval_cases c <;>
    simp only [Nat.reduceDiv, Nat.reduceMod, Nat.reduceAdd, Nat.reducePow, Nat.add_zero,
      Nat.add_assoc] <;>
    omega

/-- A field of at most 8 bits, starting at bit `s` of byte `m`, read from
the two bytes it can touch. -/
theorem stream_field_window (a : List Nat) (ha : ∀ k, byte a k < 256) (m s d : Nat)
    (hs : s < 8) (hd : d ≤ 8) :
    stream_field a (8 * m + s) d = ((byte a m + 256 * byte a (m + 1)) / 2 ^ s) % 2 ^ d := by
  rw [← sum_bits_eq]
  unfold stream_field
  congr 1
  apply List.map_congr_left
  intro b hb
  have hb2 : b < d := List.mem_range.mp hb
  rw [Nat.add_assoc, stream_bit_two_bytes a ha m (s + b) (by omega)]

/-! ## The arithmetic of one coefficient -/

theorem to_positive_nonneg (c : Int) (h0 : 0 ≤ c) (h1 : c < 2 ^ 15) : to_positive c = c := by
  have hs : c >>> (15 : Nat) = 0 := by
    rw [Int.shiftRight_eq_div_pow]
    exact Int.ediv_eq_zero_of_lt h0 (by norm_num at h1 ⊢; exact h1)
  have hq : sign_and_q c = 0 := by
    unfold sign_and_q
    rw [hs]
    decide
  unfold to_positive i16
  rw [hq]
  norm_num at h1 ⊢
  omega

theorem to_positive_neg (c : Int) (h0 : -(2 ^ 15) ≤ c) (h1 : c < 0) :
    to_positive c = c + (KYBER_Q : Int) := by
  have hs : c >>> (15 : Nat) = -1 := by
    rw [Int.shiftRight_eq_div_pow]
    norm_num at h0 ⊢
    omega
  have hq : sign_and_q c = (KYBER_Q : Int) := by
    unfold sign_and_q
    rw [hs]
    decide
  unfold to_positive i16
  rw [hq]
  norm_num [KYBER_Q] at h0 ⊢
  omega

/-- On a coefficient in `[0, q)` the multiply-and-shift is plain natural
number arithmetic modulo 2^32. -/
theorem mul_shift_nat (n l add mul r : Nat) :
    mul_shift (n : Int) l add mul r
      = ((((n * 2 ^ l) % 2 ^ 32 + add) % 2 ^ 32 * mul) % 2 ^ 32) >>> r := by
  unfold mul_shift u32
  have e : (((n : Int) * 2 ^ l) % 2 ^ 32).toNat = (n * 2 ^ l) % 2 ^ 32 := by
    have : ((n : Int) * 2 ^ l) % 2 ^ 32 = (((n * 2 ^ l) % 2 ^ 32 : Nat) : Int) := by
      push_cast
      rfl
    rw [this, Int.toNat_natCast]
  simp only [e]

theorem all_below_spec (p : Nat → Bool) (n : Nat) (h : all_below p n = true) :
    ∀ k, k < n → p k = true := by
  induction n with
  | zero => intro k hk; omega
  | succ n ih =>
    intro k hk
    simp only [all_below, Bool.and_eq_true] at h
    by_cases hkn : k = n
    · subst hkn; exact h.1
    · exact ih h.2 k (by omega)

/-- The multiply-and-shift of every build width is the rounded quotient
`round(x * 2^d / q) mod 2^d` on `[0, q)`, wrap-around included. -/
theorem compress_code_nat (d : Nat) (hd : d = 3 ∨ d = 4 ∨ d = 5 ∨ d = 6) (n : Nat)
    (hn : n < 3329) :
    compress_code d (n : Int) = round_div (n * 2 ^ d) KYBER_Q % 2 ^ d := by
  have key : to_positive (n : Int) = (n : Int) :=
    to_positive_nonneg _ (Int.natCast_nonneg n) (by norm_num; omega)
  rcases hd with rfl | rfl | rfl | rfl
  · have h := all_below_spec (fun n =>
      u8 ((((((n * 2 ^ 3) % 2 ^ 32 + 1664) % 2 ^ 32 * 161271) % 2 ^ 32) >>> 29) &&& 0x7)
        == round_div (n * 2 ^ 3) KYBER_Q % 2 ^ 3) 3329 (by decide!) n hn
    simp only [compress_code, key, mul_shift_nat]
    simpa using h
  · have h := all_below_spec (fun n =>
      u8 ((((((n * 2 ^ 4) % 2 ^ 32 + 1665) % 2 ^ 32 * 80635) % 2 ^ 32) >>> 28) &&& 0xf)
        == round_div (n * 2 ^ 4) KYBER_Q % 2 ^ 4) 3329 (by decide!) n hn
    simp only [compress_code, key, mul_shift_nat]
    simpa using h
  · have h := all_below_spec (fun n =>
      u8 ((((((n * 2 ^ 5) % 2 ^ 32 + 1664) % 2 ^ 32 * 40318) % 2 ^ 32) >>> 27) &&& 0x1f)
        == round_div (n * 2 ^ 5) KYBER_Q % 2 ^ 5) 3329 (by decide!) n hn
    simp only [compress_code, key, mul_shift_nat]
    simpa using h
  · have h := all_below_spec (fun n =>
      u8 ((((((n * 2 ^ 6) % 2 ^ 32 + 1664) % 2 ^ 32 * 20159) % 2 ^ 32) >>> 26) &&& 0x3f)
        == round_div (n * 2 ^ 6) KYBER_Q % 2 ^ 6) 3329 (by decide!) n hn
    simp only [compress_code, key, mul_shift_nat]
    simpa using h

theorem compress_code_int (d : Nat) (hd : d = 3 ∨ d = 4 ∨ d = 5 ∨ d = 6) (c : Int)
    (h0 : 0 ≤ c) (h1 : c < 3329) :
    compress_code d c = round_div (c.toNat * 2 ^ d) KYBER_Q % 2 ^ d := by
  have e : c = ((c.toNat : Nat) : Int) := (Int.toNat_of_nonneg h0).symm
  have hn : c.toNat < 3329 := by omega
  have h := compress_code_nat d hd c.toNat hn
  rw [← e] at h
  exact h

theorem compress_code_lt (d : Nat) (hd : d = 3 ∨ d = 4 ∨ d = 5 ∨ d = 6) (c : Int) :
    compress_code d c < 2 ^ d := by
  rcases hd with rfl | rfl | rfl | rfl
  · simp only [compress_code, u8, and_7]; norm_num; omega
  · simp only [compress_code, u8, and_15]; norm_num; omega
  · simp only [compress_code, u8, and_31]; norm_num; omega
  · simp only [compress_code, u8, and_63]; norm_num; omega

/-! ## The bit layout written by `poly_compress` -/

theorem pack_96_field (t : Nat → Nat) (ht : ∀ j, t j < 2 ^ 3) (j : Nat) (hj : j < 8) :
    stream_field (pack_96 t) (3 * j) 3 = t j := by
  have h0 := ht 0; have h1 := ht 1; have h2 := ht 2; have h3 := ht 3; have h4 := ht 4; have h5 := ht 5; have h6 := ht 6; have h7 := ht 7
  have hb : ∀ k, byte (pack_96 t) k < 256 := by
    intro k
    apply byte_lt_of_forall_mem
    intro b hb
    simp only [pack_96, u8, List.mem_cons, List.mem_singleton] at hb
    rcases hb with h | h | h | h <;> first | omega | simp at h
  have e : 3 * j = 8 * (3 * j / 8) + (3 * j) % 8 := by omega
  rw [e, stream_field_window _ hb _ _ 3 (by omega) (by decide)]
  simp only [pack_96, Nat.shiftRight_eq_div_pow, byte]
  simp (disch := omega) only [or_shl]
  interval_cases j <;>
    simp only [u8, List.getD_cons_zero, List.getD_cons_succ, Nat.add_assoc, Nat.reduceMul,
      Nat.reduceDiv, Nat.reduceMod, Nat.reduceAdd, Nat.reducePow, Nat.add_zero] <;>
    omega

theorem pack_128_field (t : Nat → Nat) (ht : ∀ j, t j < 2 ^ 4) (j : Nat) (hj : j < 8) :
    stream_field (pack_128 t) (4 * j) 4 = t j := by
  have h0 := ht 0; have h1 := ht 1; have h2 := ht 2; have h3 := ht 3; have h4 := ht 4; have h5 := ht 5; have h6 := ht 6; have h7 := ht 7
  have hb : ∀ k, byte (pack_128 t) k < 256 := by
    intro k
    apply byte_lt_of_forall_mem
    intro b hb
    simp only [pack_128, u8, List.mem_cons, List.mem_singleton] at hb
    rcases hb with h | h | h | h | h <;> first | omega | simp at h
  have e : 4 * j = 8 * (4 * j / 8) + (4 * j) % 8 := by omega
  rw [e, stream_field_window _ hb _ _ 4 (by omega) (by decide)]
  simp only [pack_128, Nat.shiftRight_eq_div_pow, byte]
  simp (disch := omega) only [or_shl]
  interval_cases j <;>
    simp only [u8, List.getD_cons_zero, List.getD_cons_succ, Nat.add_assoc, Nat.reduceMul,
      Nat.reduceDiv, Nat.reduceMod, Nat.reduceAdd, Nat.reducePow, Nat.add_zero] <;>
    omega

theorem pack_160_field (t : Nat → Nat) (ht : ∀ j, t j < 2 ^ 5) (j : Nat) (hj : j < 8) :
    stream_field (pack_160 t) (5 * j) 5 = t j := by
  have h0 := ht 0; have h1 := ht 1; have h2 := ht 2; have h3 := ht 3; have h4 := ht 4; have h5 := ht 5; have h6 := ht 6; have h7 := ht 7
  have hb : ∀ k, byte (pack_160 t) k < 256 := by
    intro k
    apply byte_lt_of_forall_mem
    intro b hb
    simp only [pack_160, u8, List.mem_cons, List.mem_singleton] at hb
    rcases hb with h | h | h | h | h | h <;> first | omega | simp at h
  have e : 5 * j = 8 * (5 * j / 8) + (5 * j) % 8 := by omega
  rw [e, stream_field_window _ hb _ _ 5 (by omega) (by decide)]
  simp only [pack_160, Nat.shiftRight_eq_div_pow, byte]
  simp (disch := omega) only [or_shl]
  interval_cases j <;>
    simp only [u8, List.getD_cons_zero, List.getD_cons_succ, Nat.add_assoc, Nat.reduceMul,
      Nat.reduceDiv, Nat.reduceMod, Nat.reduceAdd, Nat.reducePow, Nat.add_zero] <;>
    omega

theorem pack_192_field (t : Nat → Nat) (ht : ∀ j, t j < 2 ^ 6) (j : Nat) (hj : j < 4) :
    stream_field (pack_192 t) (6 * j) 6 = t j := by
  have h0 := ht 0; have h1 := ht 1; have h2 := ht 2; have h3 := ht 3
  have hb : ∀ k, byte (pack_192 t) k < 256 := by
    intro k
    apply byte_lt_of_forall_mem
    intro b hb
    simp only [pack_192, u8, List.mem_cons, List.mem_singleton] at hb
    rcases hb with h | h | h | h <;> first | omega | simp at h
  have e : 6 * j = 8 * (6 * j / 8) + (6 * j) % 8 := by omega
  rw [e, stream_field_window _ hb _ _ 6 (by omega) (by decide)]
  simp only [pack_192, Nat.shiftRight_eq_div_pow, byte]
  simp (disch := omega) only [or_shl]
  interval_cases j <;>
    simp only [u8, List.getD_cons_zero, List.getD_cons_succ, Nat.add_assoc, Nat.reduceMul,
      Nat.reduceDiv, Nat.reduceMod, Nat.reduceAdd, Nat.reducePow, Nat.add_zero] <;>
    omega

theorem poly_compress_96_eq (a : poly) : poly_compress_96 a =
    (List.range 32).flatMap fun i => pack_96 fun j => compress_code 3 (coeffs a (8 * i + j)) := rfl
theorem poly_compress_128_eq (a : poly) : poly_compress_128 a =
    (List.range 32).flatMap fun i => pack_128 fun j => compress_code 4 (coeffs a (8 * i + j)) := rfl
theorem poly_compress_160_eq (a : poly) : poly_compress_160 a =
    (List.range 32).flatMap fun i => pack_160 fun j => compress_code 5 (coeffs a (8 * i + j)) := rfl
theorem poly_compress_192_eq (a : poly) : poly_compress_192 a =
    (List.range 64).flatMap fun i => pack_192 fun j => compress_code 6 (coeffs a (4 * i + j)) := rfl

/-- Every build width stores the code of coefficient `k` in the `d` stream bits from `d * k`. -/
theorem compress_field (d : Nat) (hd : d = 3 ∨ d = 4 ∨ d = 5 ∨ d = 6) (a : poly) (k : Nat)
    (hk : k < 256) :
    stream_field (poly_compress (32 * d) a) (d * k) d = compress_code d (coeffs a k) := by
  rcases hd with rfl | rfl | rfl | rfl
  · have e : 3 * k = 8 * (3 * (k / 8)) + 3 * (k % 8) := by omega
    have hk8 : k = 8 * (k / 8) + k % 8 := by omega
    rw [show poly_compress (32 * 3) a = poly_compress_96 a from rfl, poly_compress_96_eq, e,
      stream_field_flatMap _ 3 (fun _ => by rfl) 32 (k / 8) _ 3 (by omega) (by omega),
      pack_96_field _ (fun j => compress_code_lt 3 (by decide) _) _ (by omega), ← hk8]
  · have e : 4 * k = 8 * (4 * (k / 8)) + 4 * (k % 8) := by omega
    have hk8 : k = 8 * (k / 8) + k % 8 := by omega
    rw [show poly_compress (32 * 4) a = poly_compress_128 a from rfl, poly_compress_128_eq, e,
      stream_field_flatMap _ 4 (fun _ => by rfl) 32 (k / 8) _ 4 (by omega) (by omega),
      pack_128_field _ (fun j => compress_code_lt 4 (by decide) _) _ (by omega), ← hk8]
  · have e : 5 * k = 8 * (5 * (k / 8)) + 5 * (k % 8) := by omega
    have hk8 : k = 8 * (k / 8) + k % 8 := by omega
    rw [show poly_compress (32 * 5) a = poly_compress_160 a from rfl, poly_compress_160_eq, e,
      stream_field_flatMap _ 5 (fun _ => by rfl) 32 (k / 8) _ 5 (by omega) (by omega),
      pack_160_field _ (fun j => compress_code_lt 5 (by decide) _) _ (by omega), ← hk8]
  · have e : 6 * k = 8 * (3 * (k / 4)) + 6 * (k % 4) := by omega
    have hk4 : k = 4 * (k / 4) + k % 4 := by omega
    rw [show poly_compress (32 * 6) a = poly_compress_192 a from rfl, poly_compress_192_eq, e,
      stream_field_flatMap _ 3 (fun _ => by rfl) 64 (k / 4) _ 6 (by omega) (by omega),
      pack_192_field _ (fun j => compress_code_lt 6 (by decide) _) _ (by omega), ← hk4]

/-! ## The fields read by `poly_decompress` -/

theorem decompress_96_coeff (a : List Nat) (ha : ∀ k, byte a k < 256) (i j : Nat)
    (hi : i < 32) (hj : j < 8) :
    coeffs (poly_decompress_96 a) (8 * i + j)
      = decompress_code 3 (stream_field a (8 * (3 * i) + 3 * j) 3) := by
  have b0 := ha (3 * i); have b1 := ha (3 * i + 1); have b2 := ha (3 * i + 2); have b3 := ha (3 * i + 3)
  have e : 8 * (3 * i) + 3 * j = 8 * (3 * i + 3 * j / 8) + (3 * j) % 8 := by omega
  rw [e, stream_field_window _ ha _ _ 3 (by omega) (by decide)]
  unfold poly_decompress_96 coeffs decompress_code
  rw [show KYBER_N / 8 = 32 from rfl, getD_flatMap_range _ 8 (fun _ => by rfl) 0 32 i j hi hj]
  simp only [and_1, and_3, and_7, Nat.shiftRight_eq_div_pow, KYBER_Q, Nat.add_zero]
  simp (disch := omega) only [or_shl]
  interval_cases j <;>
    simp only [List.getD_cons_zero, List.getD_cons_succ, Nat.add_assoc, Nat.reduceMul,
      Nat.reduceDiv, Nat.reduceMod, Nat.reduceAdd, Nat.reducePow, Nat.add_zero] <;>
    omega

theorem decompress_192_coeff (a : List Nat) (ha : ∀ k, byte a k < 256) (i j : Nat)
    (hi : i < 64) (hj : j < 4) :
    coeffs (poly_decompress_192 a) (4 * i + j)
      = decompress_code 6 (stream_field a (8 * (3 * i) + 6 * j) 6) := by
  have b0 := ha (3 * i); have b1 := ha (3 * i + 1); have b2 := ha (3 * i + 2); have b3 := ha (3 * i + 3)
  have e : 8 * (3 * i) + 6 * j = 8 * (3 * i + 6 * j / 8) + (6 * j) % 8 := by omega
  rw [e, stream_field_window _ ha _ _ 6 (by omega) (by decide)]
  unfold poly_decompress_192 coeffs decompress_code
  rw [show KYBER_N / 4 = 64 from rfl, getD_flatMap_range _ 4 (fun _ => by rfl) 0 64 i j hi hj]
  simp only [and_3, and_15, and_63, Nat.shiftRight_eq_div_pow, KYBER_Q, Nat.add_zero]
  simp (disch := omega) only [or_shl]
  interval_cases j <;>
    simp only [List.getD_cons_zero, List.getD_cons_succ, Nat.add_assoc, Nat.reduceMul,
      Nat.reduceDiv, Nat.reduceMod, Nat.reduceAdd, Nat.reducePow, Nat.add_zero] <;>
    omega

theorem decompress_128_coeff (a : List Nat) (ha : ∀ k, byte a k < 256) (i j : Nat)
    (hi : i < 128) (hj : j < 2) :
    coeffs (poly_decompress_128 a) (2 * i + j)
      = decompress_code 4 (stream_field a (8 * i + 4 * j) 4) := by
  have b0 := ha i; have b1 := ha (i + 1)
  have e : 8 * i + 4 * j = 8 * (i + 4 * j / 8) + (4 * j) % 8 := by omega
  rw [e, stream_field_window _ ha _ _ 4 (by omega) (by decide)]
  unfold poly_decompress_128 coeffs decompress_code
  rw [show KYBER_N / 2 = 128 from rfl, getD_flatMap_range _ 2 (fun _ => by rfl) 0 128 i j hi hj]
  simp only [and_15, Nat.shiftRight_eq_div_pow, KYBER_Q, Nat.add_zero]
  interval_cases j <;>
    simp only [List.getD_cons_zero, List.getD_cons_succ, Nat.add_assoc, Nat.reduceMul,
      Nat.reduceDiv, Nat.reduceMod, Nat.reduceAdd, Nat.reducePow, Nat.add_zero] <;>
    omega

theorem decompress_160_coeff (a : List Nat) (ha : ∀ k, byte a k < 256) (i j : Nat)
    (hi : i < 32) (hj : j < 8) :
    coeffs (poly_decompress_160 a) (8 * i + j)
      = decompress_code 5 (stream_field a (8 * (5 * i) + 5 * j) 5) := by
  have b0 := ha (5 * i); have b1 := ha (5 * i + 1); have b2 := ha (5 * i + 2)
  have b3 := ha (5 * i + 3); have b4 := ha (5 * i + 4); have b5 := ha (5 * i + 5)
  have e : 8 * (5 * i) + 5 * j = 8 * (5 * i + 5 * j / 8) + (5 * j) % 8 := by omega
  have key : [ u8 (byte a (5 * i + 0) >>> 0),
        u8 ((byte a (5 * i + 0) >>> 5) ||| (byte a (5 * i + 1) <<< 3)),
        u8 (byte a (5 * i + 1) >>> 2),
        u8 ((byte a (5 * i + 1) >>> 7) ||| (byte a (5 * i + 2) <<< 1)),
        u8 ((byte a (5 * i + 2) >>> 4) ||| (byte a (5 * i + 3) <<< 4)),
        u8 (byte a (5 * i + 3) >>> 1),
        u8 ((byte a (5 * i + 3) >>> 6) ||| (byte a (5 * i + 4) <<< 2)),
        u8 (byte a (5 * i + 4) >>> 3) ].getD j 0 &&& 31
      = stream_field a (8 * (5 * i) + 5 * j) 5 := by
    rw [e, stream_field_window _ ha _ _ 5 (by omega) (by decide)]
    simp only [and_31, Nat.shiftRight_eq_div_pow, Nat.add_zero, u8]
    simp (disch := omega) only [or_shl]
    interval_cases j <;>
    simp only [List.getD_cons_zero, List.getD_cons_succ, Nat.add_assoc, Nat.reduceMul,
      Nat.reduceDiv, Nat.reduceMod, Nat.reduceAdd, Nat.reducePow, Nat.add_zero] <;>
    omega
  have hlt : stream_field a (8 * (5 * i) + 5 * j) 5 < 32 := by
    rw [← key, and_31]; omega
  unfold poly_decompress_160 coeffs decompress_code
  rw [show KYBER_N / 8 = 32 from rfl, getD_flatMap_range _ 8 (fun _ => by simp) 0 32 i j hi hj,
    getD_map_range _ _ 8 j hj]
  simp only [key, KYBER_Q]
  rw [Nat.mod_eq_of_lt (by omega)]
  rfl

theorem poly_compress_byte_lt (n : Nat) (a : poly) (k : Nat) : byte (poly_compress n a) k < 256 := by
  apply byte_lt_of_forall_mem
  intro b hb
  unfold poly_compress at hb
  split_ifs at hb
  · simp only [poly_compress_128, List.mem_flatMap, List.mem_cons, List.mem_singleton, u8] at hb
    obtain ⟨i, -, h⟩ := hb
    rcases h with h | h | h | h | h <;> first | omega | simp at h
  · simp only [poly_compress_160, List.mem_flatMap, List.mem_cons, List.mem_singleton, u8] at hb
    obtain ⟨i, -, h⟩ := hb
    rcases h with h | h | h | h | h | h <;> first | omega | simp at h
  · simp only [poly_compress_96, List.mem_flatMap, List.mem_cons, List.mem_singleton, u8] at hb
    obtain ⟨i, -, h⟩ := hb
    rcases h with h | h | h | h <;> first | omega | simp at h
  · simp only [poly_compress_192, List.mem_flatMap, List.mem_cons, List.mem_singleton, u8] at hb
    obtain ⟨i, -, h⟩ := hb
    rcases h with h | h | h | h <;> first | omega | simp at h
  · simp only [poly_compress_200, List.mem_flatMap, List.mem_cons, List.mem_singleton, u8] at hb
    obtain ⟨i, -, h⟩ := hb
    rcases h with h | h | h | h | h | h <;> first | omega | simp at h
  · simp at hb

/-- Coefficient `k` of `poly_decompress` is the decompressed field at bit `d * k`. -/
theorem decompress_coeff (d : Nat) (hd : d = 3 ∨ d = 4 ∨ d = 5 ∨ d = 6) (a : List Nat)
    (ha : ∀ k, byte a k < 256) (k : Nat) (hk : k < 256) :
    coeffs (poly_decompress (32 * d) a) k = decompress_code d (stream_field a (d * k) d) := by
  rcases hd with rfl | rfl | rfl | rfl
  · have e : 3 * k = 8 * (3 * (k / 8)) + 3 * (k % 8) := by omega
    have hk8 : k = 8 * (k / 8) + k % 8 := by omega
    rw [show poly_decompress (32 * 3) a = poly_decompress_96 a from rfl, e]
    conv_lhs => rw [hk8]
    exact decompress_96_coeff a ha _ _ (by omega) (by omega)
  · have e : 4 * k = 8 * (k / 2) + 4 * (k % 2) := by omega
    have hk2 : k = 2 * (k / 2) + k % 2 := by omega
    rw [show poly_decompress (32 * 4) a = poly_decompress_128 a from rfl, e]
    conv_lhs => rw [hk2]
    exact decompress_128_coeff a ha _ _ (by omega) (by omega)
  · have e : 5 * k = 8 * (5 * (k / 8)) + 5 * (k % 8) := by omega
    have hk8 : k = 8 * (k / 8) + k % 8 := by omega
    rw [show poly_decompress (32 * 5) a = poly_decompress_160 a from rfl, e]
    conv_lhs => rw [hk8]
    exact decompress_160_coeff a ha _ _ (by omega) (by omega)
  · have e : 6 * k = 8 * (3 * (k / 4)) + 6 * (k % 4) := by omega
    have hk4 : k = 4 * (k / 4) + k % 4 := by omega
    rw [show poly_decompress (32 * 6) a = poly_decompress_192 a from rfl, e]
    conv_lhs => rw [hk4]
    exact decompress_192_coeff a ha _ _ (by omega) (by omega)

/-- The distance between a value in `[0, q)` and the decompression of its
code is at most the rounding bound of the width. -/
theorem roundtrip_bound_nat (d : Nat) (hd : d = 3 ∨ d = 4 ∨ d = 5 ∨ d = 6) (n : Nat)
    (hn : n < 3329) :
    (centered_mod (decompress_code d (round_div (n * 2 ^ d) KYBER_Q % 2 ^ d) - (n : Int))).natAbs
      ≤ round_div KYBER_Q (2 ^ (d + 1)) := by
  rcases hd with rfl | rfl | rfl | rfl
  · have h := all_below_spec (fun n => decide
      ((centered_mod (decompress_code 3 (round_div (n * 2 ^ 3) KYBER_Q % 2 ^ 3) - (n : Int))).natAbs
        ≤ round_div KYBER_Q (2 ^ (3 + 1)))) 3329 (by decide!) n hn
    simpa using h
  · have h := all_below_spec (fun n => decide
      ((centered_mod (decompress_code 4 (round_div (n * 2 ^ 4) KYBER_Q % 2 ^ 4) - (n : Int))).natAbs
        ≤ round_div KYBER_Q (2 ^ (4 + 1)))) 3329 (by decide!) n hn
    simpa using h
  · have h := all_below_spec (fun n => decide
      ((centered_mod (decompress_code 5 (round_div (n * 2 ^ 5) KYBER_Q % 2 ^ 5) - (n : Int))).natAbs
        ≤ round_div KYBER_Q (2 ^ (5 + 1)))) 3329 (by decide!) n hn
    simpa using h
  · have h := all_below_spec (fun n => decide
      ((centered_mod (decompress_code 6 (round_div (n * 2 ^ 6) KYBER_Q % 2 ^ 6) - (n : Int))).natAbs
        ≤ round_div KYBER_Q (2 ^ (6 + 1)))) 3329 (by decide!) n hn
    simpa using h

/-! ## Claims on the compression codec -/

/-- C1: for each build width d in {3, 4, 5, 6} and every polynomial x with
all coefficients in [0, q), every coefficient of
`poly_decompress (poly_compress x)` differs from the coefficient of x, as a
centered residue mod q, by at most round(q / 2^(d+1)); these bounds are
208, 104, 52 and 26. -/
theorem poly_compress_decompress_bound (d : Nat) (hd : d = 3 ∨ d = 4 ∨ d = 5 ∨ d = 6)
    (x : poly) (hx : coeffs_in x 0 3329) (k : Nat) (hk : k < 256) :
    (centered_mod
        (coeffs (poly_decompress (32 * d) (poly_compress (32 * d) x)) k - coeffs x k)).natAbs
      ≤ round_div KYBER_Q (2 ^ (d + 1))
    ∧ (round_div KYBER_Q (2 ^ (3 + 1)), round_div KYBER_Q (2 ^ (4 + 1)),
        round_div KYBER_Q (2 ^ (5 + 1)), round_div KYBER_Q (2 ^ (6 + 1))) = (208, 104, 52, 26) := by
  refine ⟨?_, by decide⟩
  obtain ⟨h0, h1⟩ := coeffs_of_coeffs_in x 0 3329 hx k hk
  rw [decompress_coeff d hd _ (poly_compress_byte_lt _ x) k hk, compress_field d hd x k hk,
    compress_code_int d hd _ h0 h1]
  have e : coeffs x k = ((coeffs x k).toNat : Int) := (Int.toNat_of_nonneg h0).symm
  have hn : (coeffs x k).toNat < 3329 := by omega
  have h := roundtrip_bound_nat d hd _ hn
  rw [← e] at h
  exact h

set_option maxRecDepth 100000 in
theorem poly_compress_decompress_bound_witness :
    coeffs_in sample_poly 0 3329 ∧ 200 < 256 ∧
    (centered_mod
        (coeffs (poly_decompress (32 * 5) (poly_compress (32 * 5) sample_poly)) 200
          - coeffs sample_poly 200)).natAbs ≤ round_div KYBER_Q (2 ^ (5 + 1)) :=
  ⟨by decide, by decide,
    (poly_compress_decompress_bound 5 (by decide) sample_poly (by decide) 200 (by decide)).1⟩

/-- C3: for each build width d in {3, 4, 5, 6} and every polynomial with
coefficients in [0, q), the bytes written by `poly_compress`, read as a
little-endian bit stream, hold at bit offset d*k the d-bit code
round(x_k * 2^d / q) mod 2^d of coefficient k; the 32-bit
multiply-and-shift of the code (with its wrap-around modulo 2^32) computes
exactly that value. -/
theorem poly_compress_bit_layout (d : Nat) (hd : d = 3 ∨ d = 4 ∨ d = 5 ∨ d = 6)
    (x : poly) (hx : coeffs_in x 0 3329) (k : Nat) (hk : k < 256) :
    stream_field (poly_compress (32 * d) x) (d * k) d
      = round_div ((coeffs x k).toNat * 2 ^ d) KYBER_Q % 2 ^ d := by
  obtain ⟨h0, h1⟩ := coeffs_of_coeffs_in x 0 3329 hx k hk
  rw [compress_field d hd x k hk, compress_code_int d hd _ h0 h1]

set_option maxRecDepth 100000 in
theorem poly_compress_bit_layout_witness :
    coeffs_in sample_poly 0 3329 ∧ 255 < 256 ∧
    stream_field (poly_compress (32 * 3) sample_poly) (3 * 255) 3
      = round_div ((coeffs sample_poly 255).toNat * 2 ^ 3) KYBER_Q % 2 ^ 3 :=
  ⟨by decide, by decide,
    poly_compress_bit_layout 3 (by decide) sample_poly (by decide) 255 (by decide)⟩

/-- C4: for each build width d in {3, 4, 5, 6} and every byte string a of
length 32*d, coefficient k of `poly_decompress a` equals
(c_k * q + 2^(d-1)) >> d, which is round(c_k * q / 2^d), where c_k is the
d-bit little-endian field of a at bit offset d*k. -/
theorem poly_decompress_formula (d : Nat) (hd : d = 3 ∨ d = 4 ∨ d = 5 ∨ d = 6)
    (a : List Nat) (ha : is_bytes a (32 * d)) (k : Nat) (hk : k < 256) :
    coeffs (poly_decompress (32 * d) a) k
      = (((stream_field a (d * k) d * KYBER_Q + 2 ^ (d - 1)) >>> d : Nat) : Int)
    ∧ (stream_field a (d * k) d * KYBER_Q + 2 ^ (d - 1)) >>> d
      = round_div (stream_field a (d * k) d * KYBER_Q) (2 ^ d) := by
  refine ⟨decompress_coeff d hd a (byte_lt_of_is_bytes a _ ha) k hk, ?_⟩
  rcases hd with rfl | rfl | rfl | rfl <;>
    simp only [round_div, Nat.shiftRight_eq_div_pow, KYBER_Q] <;>
    norm_num <;> omega

set_option maxRecDepth 100000 in
theorem poly_decompress_formula_witness :
    is_bytes (sample_bytes 192) (32 * 6) ∧ 101 < 256 ∧
    coeffs (poly_decompress (32 * 6) (sample_bytes 192)) 101
      = (((stream_field (sample_bytes 192) (6 * 101) 6 * KYBER_Q + 2 ^ (6 - 1)) >>> 6 : Nat) : Int) :=
  ⟨by decide, by decide,
    (poly_decompress_formula 6 (by decide) (sample_bytes 192) (by decide) 101 (by decide)).1⟩

/-- C2 (evaluation at the failing input): in the 200 build, for the
polynomial whose coefficient 7 is 1000 and whose other coefficients are 0,
coefficient 7 of `poly_decompress (poly_compress x)` is 0, at centered
distance 1000 from the input, above the bound round(q/256) = 13 of a 7-bit
coefficient: the packing never stores the code `t[7]`. -/
theorem poly_compress_200_loses_coeff7 :
    coeffs_in sample_poly_7 0 3329
    ∧ coeffs (poly_decompress 200 (poly_compress 200 sample_poly_7)) 7 = 0
    ∧ (centered_mod (coeffs (poly_decompress 200 (poly_compress 200 sample_poly_7)) 7
          - coeffs sample_poly_7 7)).natAbs = 1000
    ∧ round_div KYBER_Q (2 ^ (7 + 1)) = 13 := by
  set_option maxRecDepth 100000 in decide

/-! ## Full-precision serialization -/

theorem i16_u16 (c : Int) (h0 : -(2 ^ 15) ≤ c) (h1 : c < 2 ^ 15) : i16 (u16 c) = c := by
  unfold i16 u16
  rw [Int.toNat_of_nonneg (Int.emod_nonneg _ (by norm_num))]
  norm_num at h0 h1 ⊢
  omega

/-- The two statements of `poly_tobytes` that load a coefficient in `(-q, q)`
into a `uint16_t` and map it to its positive representative. -/
theorem tobytes_representative (c : Int) (h0 : -3329 < c) (h1 : c < 3329) :
    ((u16 ((u16 c : Int) + sign_and_q (i16 (u16 c))) : Nat) : Int) = canonical c
      ∧ u16 ((u16 c : Int) + sign_and_q (i16 (u16 c))) < 3329 := by
  rw [i16_u16 c (by norm_num; omega) (by norm_num; omega)]
  have hq : sign_and_q c = if 0 ≤ c then 0 else 3329 := by
    split_ifs with h
    · have hs : c >>> (15 : Nat) = 0 := by
        rw [Int.shiftRight_eq_div_pow]
        exact Int.ediv_eq_zero_of_lt h (by norm_num; omega)
      unfold sign_and_q
      rw [hs]
      decide
    · have hs : c >>> (15 : Nat) = -1 := by
        rw [Int.shiftRight_eq_div_pow]
        norm_num
        omega
      unfold sign_and_q
      rw [hs]
      decide
  rw [hq]
  unfold u16 canonical KYBER_Q
  split_ifs with h
  · constructor <;> omega
  · constructor <;> omega

theorem tobytes_byte (a : poly) (i c : Nat) (hi : i < 128) (hc : c < 3) :
    byte (poly_tobytes a) (3 * i + c) =
      [ u8 (u16 ((u16 (coeffs a (2 * i)) : Int) + sign_and_q (i16 (u16 (coeffs a (2 * i))))) >>> 0),
        u8 ((u16 ((u16 (coeffs a (2 * i)) : Int) + sign_and_q (i16 (u16 (coeffs a (2 * i))))) >>> 8)
          ||| (u16 ((u16 (coeffs a (2 * i + 1)) : Int)
                + sign_and_q (i16 (u16 (coeffs a (2 * i + 1))))) <<< 4)),
        u8 (u16 ((u16 (coeffs a (2 * i + 1)) : Int)
                + sign_and_q (i16 (u16 (coeffs a (2 * i + 1))))) >>> 4) ].getD c 0 := by
  unfold byte poly_tobytes
  rw [show KYBER_N / 2 = 128 from rfl, getD_flatMap_range _ 3 (fun _ => by rfl) 0 128 i c hi hc]

theorem frombytes_tobytes_coeff (a : poly) (ha : coeffs_in a (-3328) 3329) (i j : Nat)
    (hi : i < 128) (hj : j < 2) :
    coeffs (poly_frombytes (poly_tobytes a)) (2 * i + j) = canonical (coeffs a (2 * i + j)) := by
  have r0 := coeffs_of_coeffs_in a _ _ ha (2 * i) (by omega)
  have r1 := coeffs_of_coeffs_in a _ _ ha (2 * i + 1) (by omega)
  obtain ⟨e0, l0⟩ := tobytes_representative (coeffs a (2 * i)) (by omega) r0.2
  obtain ⟨e1, l1⟩ := tobytes_representative (coeffs a (2 * i + 1)) (by omega) r1.2
  have hb0 := tobytes_byte a i 0 hi (by omega)
  have hb1 := tobytes_byte a i 1 hi (by omega)
  have hb2 := tobytes_byte a i 2 hi (by omega)
  unfold poly_frombytes coeffs
  rw [show KYBER_N / 2 = 128 from rfl, getD_flatMap_range _ 2 (fun _ => by rfl) 0 128 i j hi hj]
  rw [hb0, hb1, hb2]
  have fin : ∀ t0 t1 : Nat, t0 < 3329 → t1 < 3329 →
      (((u8 (t0 >>> 0) >>> 0) ||| ((u8 ((t0 >>> 8) ||| (t1 <<< 4)) % 2 ^ 16) <<< 8)) &&& 0xFFF) = t0
      ∧ (((u8 ((t0 >>> 8) ||| (t1 <<< 4)) >>> 4) ||| ((u8 (t1 >>> 4) % 2 ^ 16) <<< 4)) &&& 0xFFF)
        = t1 := by
    intro t0 t1 l0 l1
    simp only [u8, Nat.shiftRight_eq_div_pow, and_4095]
    simp (disch := omega) only [or_shl]
    constructor <;> omega
  obtain ⟨f0, f1⟩ := fin _ _ l0 l1
  obtain rfl | rfl : j = 0 ∨ j = 1 := by omega
  · simp only [List.getD_cons_zero, List.getD_cons_succ, Nat.add_zero]
    exact (congrArg Nat.cast f0).trans e0
  · simp only [List.getD_cons_zero, List.getD_cons_succ, Nat.add_zero]
    exact (congrArg Nat.cast f1).trans e1

/-- C5: for every polynomial a with coefficients in (-q, q), coefficient k of
`poly_frombytes (poly_tobytes a)` is the canonical representative of a_k in
[0, q) (a_k if a_k >= 0, a_k + q otherwise); when all coefficients are in
[0, q) the round trip returns a itself. -/
theorem poly_frombytes_tobytes (a : poly) (ha : coeffs_in a (-3328) 3329) (k : Nat)
    (hk : k < 256) :
    coeffs (poly_frombytes (poly_tobytes a)) k
        = (if 0 ≤ coeffs a k then coeffs a k else coeffs a k + 3329)
      ∧ (coeffs_in a 0 3329 → poly_frombytes (poly_tobytes a) = a) := by
  have key : ∀ k, k < 256 →
      coeffs (poly_frombytes (poly_tobytes a)) k = canonical (coeffs a k) := by
    intro k hk
    have hk2 : k = 2 * (k / 2) + k % 2 := by omega
    rw [hk2]
    exact frombytes_tobytes_coeff a ha _ _ (by omega) (by omega)
  refine ⟨key k hk, ?_⟩
  intro hpos
  have hlen : (poly_frombytes (poly_tobytes a)).length = 256 := by
    unfold poly_frombytes
    rw [length_flatMap_range _ 2 (fun _ => by rfl)]
    rfl
  apply List.ext_getElem (by rw [hlen, ha.1]; rfl)
  intro n h1 h2
  have hn : n < 256 := by omega
  have e := key n hn
  have hc := coeffs_of_coeffs_in a 0 3329 hpos n hn
  unfold coeffs at e hc
  rw [List.getD_eq_getElem?_getD, List.getD_eq_getElem?_getD, List.getElem?_eq_getElem h1,
    List.getElem?_eq_getElem h2] at e
  rw [List.getD_eq_getElem?_getD, List.getElem?_eq_getElem h2] at hc
  simp only [Option.getD_some] at e hc
  rw [e, canonical, if_pos hc.1]

set_option maxRecDepth 100000 in
theorem poly_frombytes_tobytes_witness :
    coeffs_in sample_signed_poly (-3328) 3329 ∧ 3 < 256 ∧
    coeffs (poly_frombytes (poly_tobytes sample_signed_poly)) 3
        = (if 0 ≤ coeffs sample_signed_poly 3 then coeffs sample_signed_poly 3
            else coeffs sample_signed_poly 3 + 3329) ∧
    coeffs (poly_frombytes (poly_tobytes sample_signed_poly)) 3 = 368 ∧
    coeffs sample_signed_poly 3 = -2961 ∧
    poly_frombytes (poly_tobytes sample_poly) = sample_poly :=
  ⟨by decide, by decide,
    (poly_frombytes_tobytes sample_signed_poly (by decide) 3 (by decide)).1, by decide, by decide,
    (poly_frombytes_tobytes sample_poly (by decide) 0 (by decide)).2 (by decide)⟩

/-! ## Masked sums in the samplers -/

theorem and_mod_two_pow (x y n : Nat) : (x &&& y) % 2 ^ n = (x % 2 ^ n) &&& (y % 2 ^ n) := by
  apply Nat.eq_of_testBit_eq
  intro i
  simp only [Nat.testBit_mod_two_pow, Nat.testBit_and]
  cases decide (i < n) <;> simp

theorem and_div_two_pow (x y n : Nat) : (x &&& y) / 2 ^ n = (x / 2 ^ n) &&& (y / 2 ^ n) := by
  apply Nat.eq_of_testBit_eq
  intro i
  simp only [← Nat.shiftRight_eq_div_pow, Nat.testBit_shiftRight, Nat.testBit_and]

/-- A masked word, seen through a window of `w` bits at bit `n`. -/
theorem and_mask_window (x M n w : Nat) :
    (x &&& M) % 2 ^ n ≤ M % 2 ^ n
      ∧ ((x &&& M) / 2 ^ n) % 2 ^ w = ((x / 2 ^ n) % 2 ^ w) &&& ((M / 2 ^ n) % 2 ^ w) := by
  constructor
  · rw [and_mod_two_pow]; exact Nat.and_le_right
  · rw [and_div_two_pow, and_mod_two_pow]

/-- The 2-bit fields of the masked sum of `cbd2` count two adjacent bits. -/
theorem cbd2_field (t m : Nat) (hm : m < 16) :
    ((((t &&& 0x55555555) + ((t >>> 1) &&& 0x55555555)) % 2 ^ 32) >>> (2 * m)) &&& 0x3
      = (t / 2 ^ (2 * m)) % 2 + (t / 2 ^ (2 * m + 1)) % 2 := by
  obtain ⟨a1, a2⟩ := and_mask_window t 0x55555555 (2 * m) 2
  obtain ⟨b1, b2⟩ := and_mask_window (t >>> 1) 0x55555555 (2 * m) 2
  have la : t &&& 0x55555555 ≤ 0x55555555 := Nat.and_le_right
  have lb : (t >>> 1) &&& 0x55555555 ≤ 0x55555555 := Nat.and_le_right
  rw [and_3, Nat.shiftRight_eq_div_pow]
  rw [Nat.shiftRight_eq_div_pow] at b1 b2 lb ⊢
  generalize t &&& 0x55555555 = A at a1 a2 la ⊢
  generalize (t / 2 ^ 1) &&& 0x55555555 = B at b1 b2 lb ⊢
  interval_cases m <;> norm_num [and_1] at a1 a2 b1 b2 ⊢ <;> omega

/-- Three summands whose low parts do not carry add window by window. -/
theorem add3_div (A B C P : Nat) (hP : 0 < P) (h : A % P + B % P + C % P < P) :
    (A + B + C) / P = A / P + B / P + C / P := by
  have hA := Nat.div_add_mod A P
  have hB := Nat.div_add_mod B P
  have hC := Nat.div_add_mod C P
  have e : A + B + C = P * (A / P + B / P + C / P) + (A % P + B % P + C % P) := by
    rw [Nat.mul_add, Nat.mul_add]; omega
  rw [e, Nat.mul_add_div hP, Nat.div_eq_of_lt h, Nat.add_zero]

/-- The 3-bit fields of the masked sum of `cbd3` count three adjacent bits. -/
theorem cbd3_field (t m : Nat) (hm : m < 8) :
    ((((((t &&& 0x00249249) + ((t >>> 1) &&& 0x00249249)) % 2 ^ 32)
        + ((t >>> 2) &&& 0x00249249)) % 2 ^ 32) >>> (3 * m)) &&& 0x7
      = (t / 2 ^ (3 * m)) % 2 + (t / 2 ^ (3 * m + 1)) % 2 + (t / 2 ^ (3 * m + 2)) % 2 := by
  obtain ⟨a1, a2⟩ := and_mask_window t 0x00249249 (3 * m) 3
  obtain ⟨b1, b2⟩ := and_mask_window (t >>> 1) 0x00249249 (3 * m) 3
  obtain ⟨c1, c2⟩ := and_mask_window (t >>> 2) 0x00249249 (3 * m) 3
  have la : t &&& 0x00249249 ≤ 0x00249249 := Nat.and_le_right
  have lb : (t >>> 1) &&& 0x00249249 ≤ 0x00249249 := Nat.and_le_right
  have lc : (t >>> 2) &&& 0x00249249 ≤ 0x00249249 := Nat.and_le_right
  have hM : 3 * (0x00249249 % 2 ^ (3 * m)) < 2 ^ (3 * m) := by interval_cases m <;> decide
  generalize t &&& 0x00249249 = A at a1 a2 la ⊢
  generalize (t >>> 1) &&& 0x00249249 = B at b1 b2 lb ⊢
  generalize (t >>> 2) &&& 0x00249249 = C at c1 c2 lc ⊢
  rw [Nat.shiftRight_eq_div_pow] at b2 c2
  have h1 : (A + B) % 2 ^ 32 = A + B := Nat.mod_eq_of_lt (by omega)
  have h2 : (A + B + C) % 2 ^ 32 = A + B + C := Nat.mod_eq_of_lt (by omega)
  rw [h1, h2, and_7, Nat.shiftRight_eq_div_pow,
    add3_div A B C (2 ^ (3 * m)) (Nat.pow_pos (by decide)) (by omega)]
  generalize A / 2 ^ (3 * m) = A2 at a2 ⊢
  generalize B / 2 ^ (3 * m) = B2 at b2 ⊢
  generalize C / 2 ^ (3 * m) = C2 at c2 ⊢
  clear a1 b1 c1 la lb lc hM h1 h2
  interval_cases m <;> norm_num [and_1] at a2 b2 c2 ⊢ <;> omega

theorem load32_eq (buf : List Nat) (hb : ∀ k, byte buf k < 256) (off : Nat) :
    load32_littleendian buf off
      = byte buf off + byte buf (off + 1) * 2 ^ 8 + byte buf (off + 2) * 2 ^ 16
        + byte buf (off + 3) * 2 ^ 24 := by
  have h0 := hb off; have h1 := hb (off + 1); have h2 := hb (off + 2); have h3 := hb (off + 3)
  unfold load32_littleendian
  simp only [Nat.add_zero]
  rw [Nat.mod_eq_of_lt (a := byte buf off) (by omega),
    Nat.mod_eq_of_lt (a := byte buf (off + 1) <<< 8) (by rw [Nat.shiftLeft_eq]; omega),
    Nat.mod_eq_of_lt (a := byte buf (off + 2) <<< 16) (by rw [Nat.shiftLeft_eq]; omega),
    Nat.mod_eq_of_lt (a := byte buf (off + 3) <<< 24) (by rw [Nat.shiftLeft_eq]; omega)]
  simp (disch := omega) only [or_shl]

theorem load24_eq (buf : List Nat) (hb : ∀ k, byte buf k < 256) (off : Nat) :
    load24_littleendian buf off
      = byte buf off + byte buf (off + 1) * 2 ^ 8 + byte buf (off + 2) * 2 ^ 16 := by
  have h0 := hb off; have h1 := hb (off + 1); have h2 := hb (off + 2)
  unfold load24_littleendian
  simp only [Nat.add_zero]
  rw [Nat.mod_eq_of_lt (a := byte buf off) (by omega),
    Nat.mod_eq_of_lt (a := byte buf (off + 1) <<< 8) (by rw [Nat.shiftLeft_eq]; omega),
    Nat.mod_eq_of_lt (a := byte buf (off + 2) <<< 16) (by rw [Nat.shiftLeft_eq]; omega)]
  simp (disch := omega) only [or_shl]

theorem hamming_weight_2 (a : List Nat) (s : Nat) :
    hamming_weight a s 2 = stream_bit a s + stream_bit a (s + 1) := by
  simp [hamming_weight, List.range, List.range.loop]

theorem hamming_weight_3 (a : List Nat) (s : Nat) :
    hamming_weight a s 3 = stream_bit a s + stream_bit a (s + 1) + stream_bit a (s + 2) := by
  simp [hamming_weight, List.range, List.range.loop, Nat.add_assoc]

/-- Bit `c` of the word loaded at byte `off` is stream bit `8 * off + c`. -/
theorem load32_bit (buf : List Nat) (hb : ∀ k, byte buf k < 256) (off c : Nat) (hc : c < 32) :
    (load32_littleendian buf off / 2 ^ c) % 2 = stream_bit buf (8 * off + c) := by
  have h0 := hb off; have h1 := hb (off + 1); have h2 := hb (off + 2); have h3 := hb (off + 3)
  rw [load32_eq buf hb, stream_bit_at]
  interval_cases c <;>
    simp only [Nat.reduceDiv, Nat.reduceMod, Nat.reduceAdd, Nat.reducePow, Nat.add_zero,
      Nat.add_assoc] <;>
    omega

theorem load24_bit (buf : List Nat) (hb : ∀ k, byte buf k < 256) (off c : Nat) (hc : c < 24) :
    (load24_littleendian buf off / 2 ^ c) % 2 = stream_bit buf (8 * off + c) := by
  have h0 := hb off; have h1 := hb (off + 1); have h2 := hb (off + 2)
  rw [load24_eq buf hb, stream_bit_at]
  interval_cases c <;>
    simp only [Nat.reduceDiv, Nat.reduceMod, Nat.reduceAdd, Nat.reducePow, Nat.add_zero,
      Nat.add_assoc] <;>
    omega

theorem cbd2_coeff (buf : List Nat) (hb : ∀ k, byte buf k < 256) (i j : Nat)
    (hi : i < 32) (hj : j < 8) :
    coeffs (cbd2 buf) (8 * i + j)
      = ((hamming_weight buf (8 * (4 * i) + 4 * j) 2 : Nat) : Int)
        - ((hamming_weight buf (8 * (4 * i) + (4 * j + 2)) 2 : Nat) : Int) := by
  unfold cbd2 coeffs
  rw [show KYBER_N / 8 = 32 from rfl, getD_flatMap_range _ 8 (fun _ => by simp) 0 32 i j hi hj,
    getD_map_range _ _ 8 j hj]
  simp only []
  rw [show 4 * j + 0 = 2 * (2 * j) by omega, show 4 * j + 2 = 2 * (2 * j + 1) by omega,
    cbd2_field _ _ (by omega), cbd2_field _ _ (by omega)]
  rw [show 2 * (2 * j) = 4 * j by omega, show 2 * (2 * j + 1) = 4 * j + 2 by omega]
  simp only [hamming_weight_2, Nat.add_assoc]
  rw [load32_bit buf hb _ _ (by omega), load32_bit buf hb _ _ (by omega),
    load32_bit buf hb _ _ (by omega), load32_bit buf hb _ _ (by omega)]

theorem cbd3_coeff (buf : List Nat) (hb : ∀ k, byte buf k < 256) (i j : Nat)
    (hi : i < 64) (hj : j < 4) :
    coeffs (cbd3 buf) (4 * i + j)
      = ((hamming_weight buf (8 * (3 * i) + 6 * j) 3 : Nat) : Int)
        - ((hamming_weight buf (8 * (3 * i) + (6 * j + 3)) 3 : Nat) : Int) := by
  unfold cbd3 coeffs
  rw [show KYBER_N / 4 = 64 from rfl, getD_flatMap_range _ 4 (fun _ => by simp) 0 64 i j hi hj,
    getD_map_range _ _ 4 j hj]
  simp only []
  rw [show 6 * j + 0 = 3 * (2 * j) by omega, show 6 * j + 3 = 3 * (2 * j + 1) by omega,
    cbd3_field _ _ (by omega), cbd3_field _ _ (by omega)]
  rw [show 3 * (2 * j) = 6 * j by omega, show 3 * (2 * j + 1) = 6 * j + 3 by omega]
  simp only [hamming_weight_3, Nat.add_assoc]
  rw [load24_bit buf hb _ _ (by omega), load24_bit buf hb _ _ (by omega),
    load24_bit buf hb _ _ (by omega), load24_bit buf hb _ _ (by omega),
    load24_bit buf hb _ _ (by omega), load24_bit buf hb _ _ (by omega)]

/-! ## Claims on the samplers -/

/-- C6: for eta in {2, 3} and every input buffer of eta*N/4 bytes, read as a
little-endian bit stream, coefficient k of the polynomial produced by
`cbd2` / `cbd3` (the samplers `poly_cbd_eta1` selects for eta = 2 and
eta = 3) is the Hamming weight of bits 2*eta*k .. 2*eta*k+eta-1 minus the
Hamming weight of bits 2*eta*k+eta .. 2*eta*k+2*eta-1. -/
theorem cbd_hamming_difference (eta : Nat) (heta : eta = 2 ∨ eta = 3) (buf : List Nat)
    (hbuf : is_bytes buf (eta * KYBER_N / 4)) (k : Nat) (hk : k < 256) :
    coeffs (poly_cbd_eta1 eta buf) k
      = ((hamming_weight buf (2 * eta * k) eta : Nat) : Int)
        - ((hamming_weight buf (2 * eta * k + eta) eta : Nat) : Int) := by
  have hb := byte_lt_of_is_bytes buf _ hbuf
  rcases heta with rfl | rfl
  · have e1 : 2 * 2 * k = 8 * (4 * (k / 8)) + 4 * (k % 8) := by omega
    have hk8 : k = 8 * (k / 8) + k % 8 := by omega
    rw [show poly_cbd_eta1 2 buf = cbd2 buf from rfl, e1, Nat.add_assoc]
    conv_lhs => rw [hk8]
    exact cbd2_coeff buf hb _ _ (by omega) (by omega)
  · have e1 : 2 * 3 * k = 8 * (3 * (k / 4)) + 6 * (k % 4) := by omega
    have hk4 : k = 4 * (k / 4) + k % 4 := by omega
    rw [show poly_cbd_eta1 3 buf = cbd3 buf from rfl, e1, Nat.add_assoc]
    conv_lhs => rw [hk4]
    exact cbd3_coeff buf hb _ _ (by omega) (by omega)

set_option maxRecDepth 100000 in
theorem cbd_hamming_difference_witness :
    is_bytes (sample_bytes 192) (3 * KYBER_N / 4) ∧ 77 < 256 ∧
    coeffs (poly_cbd_eta1 3 (sample_bytes 192)) 77
      = ((hamming_weight (sample_bytes 192) (2 * 3 * 77) 3 : Nat) : Int)
        - ((hamming_weight (sample_bytes 192) (2 * 3 * 77 + 3) 3 : Nat) : Int) :=
  ⟨by decide, by decide,
    cbd_hamming_difference 3 (by decide) (sample_bytes 192) (by decide) 77 (by decide)⟩

theorem cbd2_range (buf : List Nat) (i j : Nat) (hi : i < 32) (hj : j < 8) :
    -2 ≤ coeffs (cbd2 buf) (8 * i + j) ∧ coeffs (cbd2 buf) (8 * i + j) ≤ 2 := by
  unfold cbd2 coeffs
  rw [show KYBER_N / 8 = 32 from rfl, getD_flatMap_range _ 8 (fun _ => by simp) 0 32 i j hi hj,
    getD_map_range _ _ 8 j hj]
  simp only []
  rw [show 4 * j + 0 = 2 * (2 * j) by omega, show 4 * j + 2 = 2 * (2 * j + 1) by omega,
    cbd2_field _ _ (by omega), cbd2_field _ _ (by omega)]
  constructor <;> omega

theorem cbd3_range (buf : List Nat) (i j : Nat) (hi : i < 64) (hj : j < 4) :
    -3 ≤ coeffs (cbd3 buf) (4 * i + j) ∧ coeffs (cbd3 buf) (4 * i + j) ≤ 3 := by
  unfold cbd3 coeffs
  rw [show KYBER_N / 4 = 64 from rfl, getD_flatMap_range _ 4 (fun _ => by simp) 0 64 i j hi hj,
    getD_map_range _ _ 4 j hj]
  simp only []
  rw [show 6 * j + 0 = 3 * (2 * j) by omega, show 6 * j + 3 = 3 * (2 * j + 1) by omega,
    cbd3_field _ _ (by omega), cbd3_field _ _ (by omega)]
  constructor <;> omega

/-- The last three statements of the inner loop of `cbd4`, on a 4-bit `a`. -/
theorem cbd4_scalar (a : Nat) (ha : a < 16) :
    -2 ≤ ((((a + 2) >>> 2 : Nat) : Int) - (((a &&& 0x3) + ((a >>> 2) &&& 0x3) : Nat) : Int))
      ∧ ((((a + 2) >>> 2 : Nat) : Int) - (((a &&& 0x3) + ((a >>> 2) &&& 0x3) : Nat) : Int)) ≤ 0 := by
  interval_cases a <;> decide

/-- The bit counts of the inner loop of `cbd5`, on a 5-bit `t`. -/
theorem cbd5_scalar (t : Nat) (ht : t < 32) :
    -2 ≤ ((((t &&& 1) + ((t >>> 1) &&& 1) + ((t >>> 2) &&& 1) : Nat) : Int)
        - ((((t >>> 3) &&& 1) + ((t >>> 4) &&& 1) : Nat) : Int))
      ∧ ((((t &&& 1) + ((t >>> 1) &&& 1) + ((t >>> 2) &&& 1) : Nat) : Int)
        - ((((t >>> 3) &&& 1) + ((t >>> 4) &&& 1) : Nat) : Int)) ≤ 3 := by
  interval_cases t <;> decide

theorem cbd4_range (buf : List Nat) (i j : Nat) (hi : i < 64) (hj : j < 4) :
    -2 ≤ coeffs (cbd4 buf) (4 * i + j) ∧ coeffs (cbd4 buf) (4 * i + j) ≤ 0 := by
  unfold cbd4 coeffs
  rw [show KYBER_N / 4 = 64 from rfl, getD_flatMap_range _ 4 (fun _ => by simp) 0 64 i j hi hj,
    getD_map_range _ _ 4 j hj]
  exact cbd4_scalar _ (by rw [and_15]; exact Nat.mod_lt _ (by decide))

theorem cbd5_range (buf : List Nat) (i j : Nat) (hi : i < 32) (hj : j < 8) :
    -2 ≤ coeffs (cbd5 buf) (8 * i + j) ∧ coeffs (cbd5 buf) (8 * i + j) ≤ 3 := by
  unfold cbd5 coeffs
  rw [show KYBER_N / 8 = 32 from rfl, getD_flatMap_range _ 8 (fun _ => by simp) 0 32 i j hi hj,
    getD_map_range _ _ 8 j hj]
  exact cbd5_scalar _ (by rw [and_31]; exact Nat.mod_lt _ (by decide))

/-- C9: for each eta in {2, 3, 4, 5} and every input buffer of eta*N/4 bytes,
every coefficient of the polynomial produced by the sampler `poly_cbd_eta1`
dispatches to (`cbd2`, `cbd3`, `cbd4`, `cbd5`) lies in [-eta, eta]. -/
theorem poly_cbd_eta1_range (eta : Nat) (heta : eta = 2 ∨ eta = 3 ∨ eta = 4 ∨ eta = 5)
    (buf : List Nat) (hbuf : is_bytes buf (eta * KYBER_N / 4)) (k : Nat) (hk : k < 256) :
    -(eta : Int) ≤ coeffs (poly_cbd_eta1 eta buf) k
      ∧ coeffs (poly_cbd_eta1 eta buf) k ≤ (eta : Int) := by
  have hk8 : k = 8 * (k / 8) + k % 8 := by omega
  have hk4 : k = 4 * (k / 4) + k % 4 := by omega
  rcases heta with rfl | rfl | rfl | rfl
  · have h := cbd2_range buf (k / 8) (k % 8) (by omega) (by omega)
    rw [← hk8] at h
    exact h
  · have h := cbd3_range buf (k / 4) (k % 4) (by omega) (by omega)
    rw [← hk4] at h
    exact h
  · have h := cbd4_range buf (k / 4) (k % 4) (by omega) (by omega)
    rw [← hk4] at h
    rw [show poly_cbd_eta1 4 buf = cbd4 buf from rfl]
    constructor
    · exact le_trans (by decide) h.1
    · exact le_trans h.2 (by decide)
  · have h := cbd5_range buf (k / 8) (k % 8) (by omega) (by omega)
    rw [← hk8] at h
    rw [show poly_cbd_eta1 5 buf = cbd5 buf from rfl]
    constructor
    · exact le_trans (by decide) h.1
    · exact le_trans h.2 (by decide)

set_option maxRecDepth 100000 in
theorem poly_cbd_eta1_range_witness :
    is_bytes (sample_bytes 320) (5 * KYBER_N / 4) ∧ 255 < 256 ∧
    -((5 : Nat) : Int) ≤ coeffs (poly_cbd_eta1 5 (sample_bytes 320)) 255
      ∧ coeffs (poly_cbd_eta1 5 (sample_bytes 320)) 255 ≤ ((5 : Nat) : Int) :=
  ⟨by decide, by decide,
    poly_cbd_eta1_range 5 (by decide) (sample_bytes 320) (by decide) 255 (by decide)⟩

/-- C7 (evaluation at the failing input): in the eta = 4 build, for the
256-byte buffer whose byte 0 is 0x01 and whose other bytes are 0, `cbd4`
produces coefficient 0 equal to -1, while the Hamming weight of the first
four bits of byte 0 minus the Hamming weight of its other four bits is 1. -/
theorem cbd4_not_hamming_difference :
    is_bytes (block_buffer 256 1) (4 * KYBER_N / 4)
    ∧ coeffs (poly_cbd_eta1 4 (block_buffer 256 1)) 0 = -1
    ∧ ((hamming_weight (block_buffer 256 1) 0 4 : Nat) : Int)
        - ((hamming_weight (block_buffer 256 1) 4 4 : Nat) : Int) = 1 := by
  set_option maxRecDepth 100000 in decide

/-- C8 (evaluation at the failing input): in the eta = 5 build, for the
320-byte buffer whose byte 0 is 0x08 and whose other bytes are 0, `cbd5`
produces coefficient 0 equal to -1, while the Hamming weight of bits 0..4
minus the Hamming weight of bits 5..9 is 1; and for the buffer whose byte 1
is 0x04 (bit 10 set), `cbd5` produces coefficient 2 equal to 1 and
coefficient 1 equal to 0, while bit 10 is the first bit of the block of
coefficient 1. -/
theorem cbd5_not_hamming_difference :
    is_bytes (block_buffer 320 8) (5 * KYBER_N / 4)
    ∧ coeffs (poly_cbd_eta1 5 (block_buffer 320 8)) 0 = -1
    ∧ ((hamming_weight (block_buffer 320 8) 0 5 : Nat) : Int)
        - ((hamming_weight (block_buffer 320 8) 5 5 : Nat) : Int) = 1
    ∧ coeffs (poly_cbd_eta1 5 (block_buffer 320 1024)) 1 = 0
    ∧ coeffs (poly_cbd_eta1 5 (block_buffer 320 1024)) 2 = 1
    ∧ ((hamming_weight (block_buffer 320 1024) 10 5 : Nat) : Int)
        - ((hamming_weight (block_buffer 320 1024) 15 5 : Nat) : Int) = 1 := by
  set_option maxRecDepth 100000 in decide

/-- C10 (evaluation over all block values): summed over the 2^(2*eta) values
of the block of coefficient 0, the coefficient of `cbd2` has sum 0 and sum
of squares 16 (mean 0, variance 1 = 2/2) and that of `cbd3` has sum 0 and
sum of squares 96 (mean 0, variance 3/2); the coefficient of `cbd4` has sum
-256 and sum of squares 384 over the 256 byte values (mean -1, variance 1/2,
not 0 and 2), and that of `cbd5` has sum 512 and sum of squares 1536 over
the 1024 block values (mean 1/2, variance 5/4, not 0 and 5/2). -/
theorem cbd_block_moments :
    sum_below (fun v => coeffs (poly_cbd_eta1 2 (block_buffer 128 v)) 0) 16 = 0
    ∧ sum_below (fun v => coeffs (poly_cbd_eta1 2 (block_buffer 128 v)) 0 ^ 2) 16 = 16
    ∧ sum_below (fun v => coeffs (poly_cbd_eta1 3 (block_buffer 192 v)) 0) 64 = 0
    ∧ sum_below (fun v => coeffs (poly_cbd_eta1 3 (block_buffer 192 v)) 0 ^ 2) 64 = 96
    ∧ sum_below (fun v => coeffs (poly_cbd_eta1 4 (block_buffer 256 v)) 0) 256 = -256
    ∧ sum_below (fun v => coeffs (poly_cbd_eta1 4 (block_buffer 256 v)) 0 ^ 2) 256 = 384
    ∧ sum_below (fun v => coeffs (poly_cbd_eta1 5 (block_buffer 320 v)) 0) 1024 = 512
    ∧ sum_below (fun v => coeffs (poly_cbd_eta1 5 (block_buffer 320 v)) 0 ^ 2) 1024 = 1536 := by
  set_option maxRecDepth 100000 in decide!

/-! ## Addition and subtraction -/

theorem i16_of_fits (z : Int) (h0 : -(2 ^ 15) ≤ z) (h1 : z < 2 ^ 15) : i16 z = z := by
  unfold i16
  norm_num at h0 h1 ⊢
  omega

/-- C16: for all polynomials a and b and every k, coefficient k of
`poly_add a b` is a_k + b_k and coefficient k of `poly_sub a b` is a_k - b_k
as plain integers, with no reduction modulo q, whenever the sum
(respectively the difference) fits in a signed 16-bit integer. -/
theorem poly_add_sub_no_reduction (a b : poly) (k : Nat) (hk : k < 256) :
    (-(2 ^ 15) ≤ coeffs a k + coeffs b k → coeffs a k + coeffs b k < 2 ^ 15 →
        coeffs (poly_add a b) k = coeffs a k + coeffs b k)
      ∧ (-(2 ^ 15) ≤ coeffs a k - coeffs b k → coeffs a k - coeffs b k < 2 ^ 15 →
        coeffs (poly_sub a b) k = coeffs a k - coeffs b k) := by
  constructor
  · intro h0 h1
    have e : coeffs (poly_add a b) k = i16 (coeffs a k + coeffs b k) := by
      unfold poly_add
      exact getD_map_range (fun i => i16 (coeffs a i + coeffs b i)) 0 256 k hk
    rw [e, i16_of_fits _ h0 h1]
  · intro h0 h1
    have e : coeffs (poly_sub a b) k = i16 (coeffs a k - coeffs b k) := by
      unfold poly_sub
      exact getD_map_range (fun i => i16 (coeffs a i - coeffs b i)) 0 256 k hk
    rw [e, i16_of_fits _ h0 h1]

set_option maxRecDepth 100000 in
theorem poly_add_sub_no_reduction_witness :
    255 < 256
      ∧ coeffs (poly_add sample_poly sample_signed_poly) 255
          = coeffs sample_poly 255 + coeffs sample_signed_poly 255
      ∧ coeffs (poly_sub sample_poly sample_signed_poly) 255
          = coeffs sample_poly 255 - coeffs sample_signed_poly 255
      ∧ coeffs (poly_add sample_poly sample_signed_poly) 255 = 3630
      ∧ (3329 : Int) ≤ 3630 :=
  ⟨by decide,
    (poly_add_sub_no_reduction sample_poly sample_signed_poly 255 (by decide)).1
      (by decide) (by decide),
    (poly_add_sub_no_reduction sample_poly sample_signed_poly 255 (by decide)).2
      (by decide) (by decide),
    by decide, by decide⟩

/-! ## Message encoding -/

theorem tomsg_bit_le (c : Int) : tomsg_bit c ≤ 1 := by
  unfold tomsg_bit
  simp only [and_1]
  omega

/-- The eight `msg[i] |= t << j` steps place bit `t j` at position `j`. -/
theorem tomsg_fold (t : Nat → Nat) (ht : ∀ j, t j ≤ 1) (j : Nat) (hj : j < 8) :
    ((List.range 8).foldl (fun msg j => u8 (msg ||| (t j <<< j))) 0 / 2 ^ j) % 2 = t j := by
  have h0 := ht 0; have h1 := ht 1; have h2 := ht 2; have h3 := ht 3
  have h4 := ht 4; have h5 := ht 5; have h6 := ht 6; have h7 := ht 7
  have e : (List.range 8).foldl (fun msg j => u8 (msg ||| (t j <<< j))) 0
      = t 0 + t 1 * 2 + t 2 * 4 + t 3 * 8 + t 4 * 16 + t 5 * 32 + t 6 * 64 + t 7 * 128 := by
    simp only [List.range, List.range.loop, List.foldl, u8, Nat.zero_or, Nat.shiftLeft_zero]
    simp (disch := omega) only [or_shl, Nat.mod_eq_of_lt, Nat.reducePow]
  rw [e]
  interval_cases j <;> simp only [Nat.reducePow] <;> omega

/-- Bit `j` of byte `i` of `poly_tomsg a` is the message bit of coefficient
`8 * i + j`. -/
theorem poly_tomsg_bit (a : poly) (i j : Nat) (hi : i < 32) (hj : j < 8) :
    (byte (poly_tomsg a) i >>> j) % 2 = tomsg_bit (coeffs a (8 * i + j)) := by
  have e : byte (poly_tomsg a) i
      = (List.range 8).foldl
          (fun msg j => u8 (msg ||| (tomsg_bit (coeffs a (8 * i + j)) <<< j))) 0 := by
    unfold poly_tomsg byte
    exact getD_map_range _ 0 32 i hi
  rw [e, Nat.shiftRight_eq_div_pow,
    tomsg_fold (fun j => tomsg_bit (coeffs a (8 * i + j))) (fun j => tomsg_bit_le _) j hj]

theorem u32_natCast (n : Nat) (hn : n < 2 ^ 32) : u32 (n : Int) = n := by
  unfold u32
  have : ((n : Int) % 2 ^ 32) = (n : Int) := Int.emod_eq_of_lt (Int.natCast_nonneg n) (by
    norm_num at hn ⊢; omega)
  rw [this, Int.toNat_natCast]

/-- On `[0, q)` the multiply-and-shift of `poly_tomsg` is `round(2x/q) mod 2`,
which is 1 exactly on `[833, 2496]`. -/
theorem tomsg_bit_nat (n : Nat) (hn : n < 3329) :
    tomsg_bit (n : Int) = ((2 * n + KYBER_Q / 2) / KYBER_Q) &&& 1
      ∧ ((2 * n + KYBER_Q / 2) / KYBER_Q) &&& 1 = round_div (2 * n) KYBER_Q % 2
      ∧ (tomsg_bit (n : Int) = 1 ↔ 833 ≤ n ∧ n ≤ 2496)
      ∧ tomsg_bit (n : Int) = (((2 * n + 1665) * 80635) >>> 28) &&& 1 := by
  have e : tomsg_bit (n : Int)
      = ((((((n <<< 1) % 2 ^ 32 + 1665) % 2 ^ 32) * 80635) % 2 ^ 32) >>> 28) &&& 1 := by
    unfold tomsg_bit
    rw [u32_natCast n (by norm_num; omega)]
  have h := all_below_spec (fun n =>
    (((((((n <<< 1) % 2 ^ 32 + 1665) % 2 ^ 32) * 80635) % 2 ^ 32) >>> 28) &&& 1
        == ((2 * n + KYBER_Q / 2) / KYBER_Q) &&& 1)
      && (((2 * n + KYBER_Q / 2) / KYBER_Q) &&& 1 == round_div (2 * n) KYBER_Q % 2)
      && (decide (((((((n <<< 1) % 2 ^ 32 + 1665) % 2 ^ 32) * 80635) % 2 ^ 32) >>> 28) &&& 1 = 1)
          == decide (833 ≤ n ∧ n ≤ 2496))
      && (((((((n <<< 1) % 2 ^ 32 + 1665) % 2 ^ 32) * 80635) % 2 ^ 32) >>> 28) &&& 1
        == (((2 * n + 1665) * 80635) >>> 28) &&& 1)) 3329 (by decide!) n hn
  simp only [Bool.and_eq_true, beq_iff_eq, decide_eq_decide] at h
  rw [e]
  exact ⟨h.1.1.1, h.1.1.2, h.1.2, h.2⟩

/-- C14: for every polynomial a with coefficients in [0, q), bit j of byte i
of `poly_tomsg a` equals ((2x + q/2) / q) & 1 with x = a[8i+j] and integer
division, which is round(2x/q) mod 2 and is 1 exactly when
833 <= x <= 2496; the multiply-and-shift ((2x + 1665) * 80635) >> 28
computes exactly this bit. -/
theorem poly_tomsg_rounding (a : poly) (ha : coeffs_in a 0 3329) (i j : Nat) (hi : i < 32)
    (hj : j < 8) :
    (byte (poly_tomsg a) i >>> j) % 2
        = ((2 * (coeffs a (8 * i + j)).toNat + KYBER_Q / 2) / KYBER_Q) &&& 1
      ∧ ((2 * (coeffs a (8 * i + j)).toNat + KYBER_Q / 2) / KYBER_Q) &&& 1
        = round_div (2 * (coeffs a (8 * i + j)).toNat) KYBER_Q % 2
      ∧ ((byte (poly_tomsg a) i >>> j) % 2 = 1
        ↔ 833 ≤ coeffs a (8 * i + j) ∧ coeffs a (8 * i + j) ≤ 2496)
      ∧ (byte (poly_tomsg a) i >>> j) % 2
        = (((2 * (coeffs a (8 * i + j)).toNat + 1665) * 80635) >>> 28) &&& 1 := by
  obtain ⟨h0, h1⟩ := coeffs_of_coeffs_in a 0 3329 ha (8 * i + j) (by omega)
  have e : coeffs a (8 * i + j) = (((coeffs a (8 * i + j)).toNat : Nat) : Int) :=
    (Int.toNat_of_nonneg h0).symm
  have hn : (coeffs a (8 * i + j)).toNat < 3329 := by omega
  obtain ⟨t1, t2, t3, t4⟩ := tomsg_bit_nat _ hn
  rw [← e] at t1 t3 t4
  rw [poly_tomsg_bit a i j hi hj]
  refine ⟨t1, t2, ?_, t4⟩
  rw [t3]
  omega

set_option maxRecDepth 100000 in
theorem poly_tomsg_rounding_witness :
    coeffs_in sample_poly 0 3329 ∧ 8 < 32 ∧ 1 < 8
      ∧ (byte (poly_tomsg sample_poly) 8 >>> 1) % 2
        = ((2 * (coeffs sample_poly (8 * 8 + 1)).toNat + KYBER_Q / 2) / KYBER_Q) &&& 1
      ∧ (byte (poly_tomsg sample_poly) 8 >>> 1) % 2 = 1
      ∧ coeffs sample_poly (8 * 8 + 1) = 845
      ∧ (byte (poly_tomsg sample_poly) 8 >>> 0) % 2 = 0
      ∧ coeffs sample_poly (8 * 8 + 0) = 832 :=
  ⟨by decide, by decide, by decide,
    (poly_tomsg_rounding sample_poly (by decide) 8 1 (by decide) (by decide)).1,
    by decide, by decide, by decide, by decide⟩

/-! ## Sizes of the compressed form -/

theorem byte_take (b : List Nat) (n k : Nat) (hk : k < n) : byte (b.take n) k = byte b k := by
  unfold byte
  rw [List.getD_eq_getElem?_getD, List.getD_eq_getElem?_getD, List.getElem?_take_of_lt hk]

/-- C15 (evaluation of the 200 build): the branches for 96, 128, 160 and
192 write exactly that many bytes for every input polynomial, but the branch
for KYBER_POLYCOMPRESSEDBYTES = 200 writes 160 bytes (5 bytes for each of
the 32 groups) for every input polynomial, and `poly_decompress` of that
build reads only the first 160 bytes of its input. -/
theorem poly_compress_200_length :
    (∀ a : poly, (poly_compress 96 a).length = 96)
      ∧ (∀ a : poly, (poly_compress 128 a).length = 128)
      ∧ (∀ a : poly, (poly_compress 160 a).length = 160)
      ∧ (∀ a : poly, (poly_compress 192 a).length = 192)
      ∧ (∀ a : poly, (poly_compress 200 a).length = 160)
      ∧ (∀ b : List Nat, poly_decompress 200 b = poly_decompress 200 (b.take 160)) := by
  refine ⟨?_, ?_, ?_, ?_, ?_, ?_⟩
  · intro a
    show (poly_compress_96 a).length = 96
    unfold poly_compress_96
    rw [show KYBER_N / 8 = 32 from rfl, length_flatMap_range _ 3 (fun _ => by rfl)]
  · intro a
    show (poly_compress_128 a).length = 128
    unfold poly_compress_128
    rw [show KYBER_N / 8 = 32 from rfl, length_flatMap_range _ 4 (fun _ => by rfl)]
  · intro a
    show (poly_compress_160 a).length = 160
    unfold poly_compress_160
    rw [show KYBER_N / 8 = 32 from rfl, length_flatMap_range _ 5 (fun _ => by rfl)]
  · intro a
    show (poly_compress_192 a).length = 192
    unfold poly_compress_192
    rw [show KYBER_N / 4 = 64 from rfl, length_flatMap_range _ 3 (fun _ => by rfl)]
  · intro a
    show (poly_compress_200 a).length = 160
    unfold poly_compress_200
    rw [show KYBER_N / 8 = 32 from rfl, length_flatMap_range _ 5 (fun _ => by rfl)]
  · intro b
    show poly_decompress_200 b = poly_decompress_200 (b.take 160)
    unfold poly_decompress_200
    apply List.flatMap_congr
    intro i hi
    have hi2 : i < 32 := List.mem_range.mp hi
    simp only [byte_take b 160 (5 * i + 0) (by omega), byte_take b 160 (5 * i + 1) (by omega),
      byte_take b 160 (5 * i + 2) (by omega), byte_take b 160 (5 * i + 3) (by omega),
      byte_take b 160 (5 * i + 4) (by omega)]

/-- C20 (evaluation at the failing input): in the 200 build the code of a
coefficient 0-3 equals round(x * 2^5 / q) mod 2^5 for every x in [0, q), but
the code of a coefficient 4-7 (multiply by 10079, shift by 25) is 111 at
x = 2900 where round(x * 2^7 / q) mod 2^7 is 112; with the multiplier 10080
the same statements give the rounded value for every x in [0, q). The wrong
code reaches the output: for the polynomial whose coefficient 4 is 2900,
bytes 2 and 3 written by `poly_compress` are 240 and 13, the low four and
the high three bits of 111. -/
theorem poly_compress_200_high_code :
    all_below (fun n => compress_code_200_low (n : Int)
        == round_div (n * 2 ^ 5) KYBER_Q % 2 ^ 5) 3329 = true
      ∧ compress_code_200_high 2900 = 111
      ∧ round_div (2900 * 2 ^ 7) KYBER_Q % 2 ^ 7 = 112
      ∧ all_below (fun n => u8 (mul_shift (to_positive (n : Int)) 7 1664 10080 25 &&& 0x7f)
        == round_div (n * 2 ^ 7) KYBER_Q % 2 ^ 7) 3329 = true
      ∧ byte (poly_compress 200 sample_poly_4) 2 = 240
      ∧ byte (poly_compress 200 sample_poly_4) 3 = 13
      ∧ coeffs sample_poly_4 4 = 2900 := by
  set_option maxRecDepth 100000 in decide!

theorem poly_compress_200_eq (a : poly) : poly_compress_200 a =
    (List.range 32).flatMap fun i =>
      let t : Nat → Nat := fun j =>
        if j < 4 then compress_code_200_low (coeffs a (8 * i + j))
        else compress_code_200_high (coeffs a (8 * i + (j - 4) + 4))
      [ u8 (t 0 ||| (t 1 <<< 5)),
        u8 ((t 1 >>> 3) ||| (t 2 <<< 2) ||| (t 3 <<< 7)),
        u8 ((t 3 >>> 1) ||| (t 4 <<< 4)),
        u8 ((t 4 >>> 3) ||| (t 5 <<< 4)),
        u8 ((t 5 >>> 3) ||| (t 6 <<< 4)) ] := rfl

/-! ## Size checks of the Kyber tools -/

/-- C18 (evaluation at the failing input): for all expected sizes, a secret
key file one byte longer than CRYPTO_SECRETKEYBYTES, a ciphertext file five
bytes longer than CRYPTO_CIPHERTEXTBYTES and a public key file one byte longer
than CRYPTO_PUBLICKEYBYTES pass the size check: `kyber_decrypt` and
`kyber_encrypt` call the core on the first bytes of the file and exit with
status 0. A file one byte shorter than expected ends the run with status 1
before the core is called. -/
theorem kyber_tools_accept_longer_files (n m : Nat) :
    kyber_decrypt_main n m (some (List.replicate (n + 1) 7)) (some (List.replicate m 7)) true
        = ⟨0, some [List.replicate m 7, List.replicate n 7]⟩
      ∧ kyber_decrypt_main n m (some (List.replicate n 7)) (some (List.replicate (m + 5) 7)) true
        = ⟨0, some [List.replicate m 7, List.replicate n 7]⟩
      ∧ kyber_encrypt_main n (some (List.replicate (n + 1) 7)) true
        = ⟨0, some [List.replicate n 7]⟩
      ∧ kyber_decrypt_main (n + 1) m (some (List.replicate n 7)) (some (List.replicate m 7)) true
        = ⟨1, none⟩
      ∧ kyber_encrypt_main (n + 1) (some (List.replicate n 7)) true = ⟨1, none⟩ := by
  simp [kyber_decrypt_main, kyber_encrypt_main, read_from_file, List.take_replicate]

/-! ## Negative representatives in `poly_tomsg` -/

/-- For `c = -(n + 1)` in `(-q, 0)` other than -2497, the multiply-and-shift
gives the bit of `c + q` and the bit of the reference computation. -/
theorem tomsg_bit_negative (c : Int) (h0 : -3329 < c) (h1 : c < 0) (hne : c ≠ -2497) :
    tomsg_bit c = tomsg_bit (c + 3329) ∧ tomsg_bit c = tomsg_reference c := by
  have h := all_below_spec (fun n => (n == 2496)
      || (tomsg_bit (-(n : Int) - 1) == tomsg_bit (-(n : Int) - 1 + 3329)
        && tomsg_bit (-(n : Int) - 1) == tomsg_reference (-(n : Int) - 1))) 3328
    (by decide!) (-c - 1).toNat (by omega)
  have e : -(((-c - 1).toNat : Nat) : Int) - 1 = c := by omega
  have hn : (-c - 1).toNat ≠ 2496 := by omega
  beta_reduce at h
  rw [e] at h
  simp only [Bool.or_eq_true, beq_iff_eq, Bool.and_eq_true, hn, false_or] at h
  exact h

/-- C21 (evaluation at the failing input): the coefficient -2497 lies in
(-q, 0); `poly_tomsg` derives the bit 1 from it, while it derives the bit 0
from -2497 + q = 832 and the reference computation kept in its comment,
't += ((int16_t)t >> 15) & KYBER_Q; t = (((t << 1) + KYBER_Q/2)/KYBER_Q) & 1',
gives 0 on -2497. So the bit is not the same for every c in (-q, 0) and
c + q. -/
theorem poly_tomsg_negative_2497 :
    -3329 < (-2497 : Int) ∧ (-2497 : Int) < 0
      ∧ (byte (poly_tomsg (-2497 :: List.replicate 255 0)) 0 >>> 0) % 2 = 1
      ∧ (byte (poly_tomsg ((-2497 + 3329) :: List.replicate 255 0)) 0 >>> 0) % 2 = 0
      ∧ tomsg_reference (-2497) = 0
      ∧ ¬ (∀ c : Int, -3329 < c → c < 0 → tomsg_bit c = tomsg_bit (c + 3329)) := by
  refine ⟨by decide, by decide, by decide, by decide, by decide, ?_⟩
  intro h
  exact absurd (h (-2497) (by decide) (by decide)) (by decide)

/-- Extent of the deviation: for every coefficient c in (-q, 0) other than
-2497, the message bit `poly_tomsg` derives from c is the bit it derives
from c + q and the bit of the reference computation on c. -/
theorem poly_tomsg_negative_elsewhere (a b : poly) (i j : Nat) (hi : i < 32) (hj : j < 8)
    (h0 : -3329 < coeffs a (8 * i + j)) (h1 : coeffs a (8 * i + j) < 0)
    (hne : coeffs a (8 * i + j) ≠ -2497)
    (hb : coeffs b (8 * i + j) = coeffs a (8 * i + j) + 3329) :
    (byte (poly_tomsg a) i >>> j) % 2 = (byte (poly_tomsg b) i >>> j) % 2
      ∧ (byte (poly_tomsg a) i >>> j) % 2 = tomsg_reference (coeffs a (8 * i + j)) := by
  rw [poly_tomsg_bit a i j hi hj, poly_tomsg_bit b i j hi hj, hb]
  exact tomsg_bit_negative _ h0 h1 hne

/-! ## Pairwise multiplication in the transform domain -/

/-- C22: for every i in 0..63 and all inputs a, b, output coefficients
(4i, 4i+1) of `poly_basemul_montgomery` are
basemul(a[4i..4i+1], b[4i..4i+1], zetas[64+i]) and output coefficients
(4i+2, 4i+3) are basemul(a[4i+2..4i+3], b[4i+2..4i+3], -zetas[64+i]) (the
negation taken as an `int16_t`, which is -zetas[64+i] unless the entry is
-2^15), with `basemul` and `zetas` as parameters; so each output pair
depends only on the two input pairs at the same position. -/
theorem poly_basemul_montgomery_pairs
    (basemul : Int → Int → Int → Int → Int → Int × Int) (zetas : Nat → Int) (a b : poly)
    (i : Nat) (hi : i < 64) :
    (coeffs (poly_basemul_montgomery basemul zetas a b) (4 * i),
        coeffs (poly_basemul_montgomery basemul zetas a b) (4 * i + 1))
        = basemul (coeffs a (4 * i)) (coeffs a (4 * i + 1))
            (coeffs b (4 * i)) (coeffs b (4 * i + 1)) (zetas (64 + i))
      ∧ (coeffs (poly_basemul_montgomery basemul zetas a b) (4 * i + 2),
        coeffs (poly_basemul_montgomery basemul zetas a b) (4 * i + 3))
        = basemul (coeffs a (4 * i + 2)) (coeffs a (4 * i + 3))
            (coeffs b (4 * i + 2)) (coeffs b (4 * i + 3)) (i16 (-zetas (64 + i)))
      ∧ (-(2 ^ 15) < zetas (64 + i) → zetas (64 + i) < 2 ^ 15 →
          i16 (-zetas (64 + i)) = -zetas (64 + i))
      ∧ (∀ a2 b2 : poly,
          coeffs a2 (4 * i) = coeffs a (4 * i) → coeffs a2 (4 * i + 1) = coeffs a (4 * i + 1) →
          coeffs b2 (4 * i) = coeffs b (4 * i) → coeffs b2 (4 * i + 1) = coeffs b (4 * i + 1) →
          coeffs (poly_basemul_montgomery basemul zetas a2 b2) (4 * i)
              = coeffs (poly_basemul_montgomery basemul zetas a b) (4 * i)
            ∧ coeffs (poly_basemul_montgomery basemul zetas a2 b2) (4 * i + 1)
              = coeffs (poly_basemul_montgomery basemul zetas a b) (4 * i + 1))
      ∧ (∀ a2 b2 : poly,
          coeffs a2 (4 * i + 2) = coeffs a (4 * i + 2) →
          coeffs a2 (4 * i + 3) = coeffs a (4 * i + 3) →
          coeffs b2 (4 * i + 2) = coeffs b (4 * i + 2) →
          coeffs b2 (4 * i + 3) = coeffs b (4 * i + 3) →
          coeffs (poly_basemul_montgomery basemul zetas a2 b2) (4 * i + 2)
              = coeffs (poly_basemul_montgomery basemul zetas a b) (4 * i + 2)
            ∧ coeffs (poly_basemul_montgomery basemul zetas a2 b2) (4 * i + 3)
              = coeffs (poly_basemul_montgomery basemul zetas a b) (4 * i + 3)) := by
  have key : ∀ (x y : poly) (c : Nat), c < 4 →
      coeffs (poly_basemul_montgomery basemul zetas x y) (4 * i + c)
        = [ (basemul (coeffs x (4 * i)) (coeffs x (4 * i + 1))
              (coeffs y (4 * i)) (coeffs y (4 * i + 1)) (zetas (64 + i))).1,
            (basemul (coeffs x (4 * i)) (coeffs x (4 * i + 1))
              (coeffs y (4 * i)) (coeffs y (4 * i + 1)) (zetas (64 + i))).2,
            (basemul (coeffs x (4 * i + 2)) (coeffs x (4 * i + 2 + 1))
              (coeffs y (4 * i + 2)) (coeffs y (4 * i + 2 + 1)) (i16 (-zetas (64 + i)))).1,
            (basemul (coeffs x (4 * i + 2)) (coeffs x (4 * i + 2 + 1))
              (coeffs y (4 * i + 2)) (coeffs y (4 * i + 2 + 1))
              (i16 (-zetas (64 + i)))).2 ].getD c 0 := by
    intro x y c hc
    unfold poly_basemul_montgomery
    exact getD_flatMap_range _ 4 (fun _ => by rfl) 0 64 i c hi hc
  have k0 := fun x y => key x y 0 (by decide)
  have k1 := fun x y => key x y 1 (by decide)
  have k2 := fun x y => key x y 2 (by decide)
  have k3 := fun x y => key x y 3 (by decide)
  simp only [List.getD_cons_zero, List.getD_cons_succ, Nat.add_zero] at k0 k1 k2 k3
  refine ⟨?_, ?_, ?_, ?_, ?_⟩
  · rw [k0, k1]
  · rw [k2, k3]
  · intro h0 h1
    exact i16_of_fits _ (by omega) (by omega)
  · intro a2 b2 e0 e1 e2 e3
    rw [k0, k1, k0, k1, e0, e1, e2, e3]
    exact ⟨rfl, rfl⟩
  · intro a2 b2 e0 e1 e2 e3
    have e1b : coeffs a2 (4 * i + 2 + 1) = coeffs a (4 * i + 2 + 1) := e1
    have e3b : coeffs b2 (4 * i + 2 + 1) = coeffs b (4 * i + 2 + 1) := e3
    rw [k2, k3, k2, k3, e0, e1b, e2, e3b]
    exact ⟨rfl, rfl⟩

set_option maxRecDepth 100000 in
theorem poly_basemul_montgomery_pairs_witness :
    63 < 64
      ∧ (coeffs (poly_basemul_montgomery sample_basemul sample_zetas sample_poly
            sample_signed_poly) (4 * 63),
          coeffs (poly_basemul_montgomery sample_basemul sample_zetas sample_poly
            sample_signed_poly) (4 * 63 + 1))
        = sample_basemul (coeffs sample_poly (4 * 63)) (coeffs sample_poly (4 * 63 + 1))
            (coeffs sample_signed_poly (4 * 63)) (coeffs sample_signed_poly (4 * 63 + 1))
            (sample_zetas (64 + 63))
      ∧ i16 (-sample_zetas (64 + 63)) = -sample_zetas (64 + 63) :=
  ⟨by decide,
    (poly_basemul_montgomery_pairs sample_basemul sample_zetas sample_poly sample_signed_poly
      63 (by decide)).1,
    (poly_basemul_montgomery_pairs sample_basemul sample_zetas sample_poly sample_signed_poly
      63 (by decide)).2.2.1 (by decide) (by decide)⟩

/-! ## Ranges of the decoders -/

theorem stream_field_lt (a : List Nat) (ha : ∀ k, byte a k < 256) (o d : Nat) (hd : d ≤ 8) :
    stream_field a o d < 2 ^ d := by
  have e : o = 8 * (o / 8) + o % 8 := by omega
  rw [e, stream_field_window a ha _ _ d (by omega) hd]
  exact Nat.mod_lt _ (Nat.pow_pos (by decide))

theorem decompress_code_range (d : Nat) (hd : d = 3 ∨ d = 4 ∨ d = 5 ∨ d = 6) (c : Nat)
    (hc : c < 2 ^ d) : 0 ≤ decompress_code d c ∧ decompress_code d c < 3329 := by
  unfold decompress_code
  rcases hd with rfl | rfl | rfl | rfl <;>
    simp only [Nat.shiftRight_eq_div_pow, KYBER_Q] <;>
    norm_num at hc ⊢ <;> omega

/-- C28: for each build width d in {3, 4, 5, 6} and every input byte string
of the compressed length 32*d, every coefficient of the output of
`poly_decompress` lies in the canonical range [0, q). -/
theorem poly_decompress_range (d : Nat) (hd : d = 3 ∨ d = 4 ∨ d = 5 ∨ d = 6)
    (a : List Nat) (ha : is_bytes a (32 * d)) (k : Nat) (hk : k < 256) :
    0 ≤ coeffs (poly_decompress (32 * d) a) k ∧ coeffs (poly_decompress (32 * d) a) k < 3329 := by
  have hb := byte_lt_of_is_bytes a _ ha
  rw [decompress_coeff d hd a hb k hk]
  exact decompress_code_range d hd _
    (stream_field_lt a hb _ d (by rcases hd with rfl | rfl | rfl | rfl <;> decide))

set_option maxRecDepth 100000 in
theorem poly_decompress_range_witness :
    is_bytes (sample_bytes 96) (32 * 3) ∧ 255 < 256
      ∧ 0 ≤ coeffs (poly_decompress (32 * 3) (sample_bytes 96)) 255
      ∧ coeffs (poly_decompress (32 * 3) (sample_bytes 96)) 255 < 3329 :=
  ⟨by decide, by decide,
    poly_decompress_range 3 (by decide) (sample_bytes 96) (by decide) 255 (by decide)⟩

theorem frombytes_coeff (a : List Nat) (i j : Nat) (hi : i < 128) (hj : j < 2) :
    coeffs (poly_frombytes a) (2 * i + j)
      = [ ((((byte a (3 * i + 0) >>> 0) ||| ((byte a (3 * i + 1) % 2 ^ 16) <<< 8))
            &&& 0xFFF : Nat) : Int),
          ((((byte a (3 * i + 1) >>> 4) ||| ((byte a (3 * i + 2) % 2 ^ 16) <<< 4))
            &&& 0xFFF : Nat) : Int) ].getD j 0 := by
  unfold poly_frombytes coeffs
  rw [show KYBER_N / 2 = 128 from rfl, getD_flatMap_range _ 2 (fun _ => by rfl) 0 128 i j hi hj]

/-- C29: `poly_frombytes` performs no reduction or range check: for every
384-byte input every coefficient it returns lies in [0, 4095], and for the
input of 384 bytes 0xFF it returns the coefficient 4095, which is >= q. -/
theorem poly_frombytes_range (a : List Nat) (ha : is_bytes a 384) (k : Nat) (hk : k < 256) :
    (0 ≤ coeffs (poly_frombytes a) k ∧ coeffs (poly_frombytes a) k ≤ 4095)
      ∧ (is_bytes (List.replicate 384 255) 384
        ∧ coeffs (poly_frombytes (List.replicate 384 255)) 0 = 4095
        ∧ (KYBER_Q : Int) ≤ coeffs (poly_frombytes (List.replicate 384 255)) 0) := by
  have _hlen : a.length = 384 := ha.1
  refine ⟨?_, by set_option maxRecDepth 100000 in decide⟩
  have hk2 : k = 2 * (k / 2) + k % 2 := by omega
  rw [hk2, frombytes_coeff a (k / 2) (k % 2) (by omega) (by omega)]
  obtain h | h : k % 2 = 0 ∨ k % 2 = 1 := by omega
  · rw [h]
    simp only [List.getD_cons_zero, and_4095]
    omega
  · rw [h]
    simp only [List.getD_cons_succ, List.getD_cons_zero, and_4095]
    omega

set_option maxRecDepth 100000 in
theorem poly_frombytes_range_witness :
    is_bytes (sample_bytes 384) 384 ∧ 100 < 256
      ∧ 0 ≤ coeffs (poly_frombytes (sample_bytes 384)) 100
      ∧ coeffs (poly_frombytes (sample_bytes 384)) 100 ≤ 4095 :=
  ⟨by decide, by decide,
    (poly_frombytes_range (sample_bytes 384) (by decide) 100 (by decide)).1⟩

/-! ## Byte strings are serializations -/

/-- Two byte arrays of the same length with the same bytes are equal. -/
theorem list_eq_of_byte_eq (x y : List Nat) (hl : x.length = y.length)
    (h : ∀ k, k < x.length → byte x k = byte y k) : x = y := by
  apply List.ext_getElem hl
  intro n h1 h2
  have e := h n h1
  unfold byte at e
  rw [List.getD_eq_getElem?_getD, List.getD_eq_getElem?_getD, List.getElem?_eq_getElem h1,
    List.getElem?_eq_getElem h2] at e
  simpa using e

/-- The load and correction of `poly_tobytes` leave a value in `[0, 2^15)`
unchanged. -/
theorem tobytes_nonneg (n : Nat) (hn : n < 2 ^ 15) :
    u16 ((u16 (n : Int) : Int) + sign_and_q (i16 (u16 (n : Int)))) = n := by
  have e1 : u16 (n : Int) = n := by
    unfold u16
    rw [Int.emod_eq_of_lt (Int.natCast_nonneg n) (by norm_num at hn ⊢; omega), Int.toNat_natCast]
  rw [e1, i16_of_fits _ (by norm_num; omega) (by norm_num at hn ⊢; omega)]
  have hs : (n : Int) >>> (15 : Nat) = 0 := by
    rw [Int.shiftRight_eq_div_pow]
    exact Int.ediv_eq_zero_of_lt (Int.natCast_nonneg n) (by norm_num at hn ⊢; omega)
  have hq : sign_and_q (n : Int) = 0 := by
    unfold sign_and_q
    rw [hs]
    decide
  rw [hq, Int.add_zero, e1]

theorem tobytes_frombytes_byte (b : List Nat) (hb : ∀ k, byte b k < 256) (i c : Nat)
    (hi : i < 128) (hc : c < 3) :
    byte (poly_tobytes (poly_frombytes b)) (3 * i + c) = byte b (3 * i + c) := by
  have b0 := hb (3 * i); have b1 := hb (3 * i + 1); have b2 := hb (3 * i + 2)
  have c0 := frombytes_coeff b i 0 hi (by decide)
  have c1 := frombytes_coeff b i 1 hi (by decide)
  simp only [List.getD_cons_zero, List.getD_cons_succ, Nat.add_zero, and_4095,
    Nat.shiftRight_eq_div_pow] at c0 c1
  rw [tobytes_byte _ i c hi hc, c0, c1,
    tobytes_nonneg _ (lt_of_lt_of_le (Nat.mod_lt _ (by decide)) (by decide)),
    tobytes_nonneg _ (lt_of_lt_of_le (Nat.mod_lt _ (by decide)) (by decide))]
  rw [Nat.mod_eq_of_lt (a := byte b (3 * i + 1)) (by omega),
    Nat.mod_eq_of_lt (a := byte b (3 * i + 2)) (by omega)]
  simp only [u8, Nat.shiftRight_eq_div_pow]
  simp (disch := omega) only [or_shl]
  interval_cases c <;>
    simp only [List.getD_cons_zero, List.getD_cons_succ, Nat.reducePow, Nat.add_zero] <;>
    omega

/-- C24: for every byte string b of length KYBER_POLYBYTES = 384,
`poly_tobytes (poly_frombytes b) = b`. -/
theorem poly_tobytes_frombytes (b : List Nat) (hb : is_bytes b 384) :
    poly_tobytes (poly_frombytes b) = b := by
  have hlen : (poly_tobytes (poly_frombytes b)).length = 384 := by
    unfold poly_tobytes
    rw [show KYBER_N / 2 = 128 from rfl, length_flatMap_range _ 3 (fun _ => by rfl)]
  apply list_eq_of_byte_eq _ _ (by rw [hlen, hb.1])
  intro k hk
  rw [hlen] at hk
  have hk3 : k = 3 * (k / 3) + k % 3 := by omega
  rw [hk3]
  exact tobytes_frombytes_byte b (byte_lt_of_is_bytes b _ hb) _ _ (by omega) (by omega)

set_option maxRecDepth 100000 in
theorem poly_tobytes_frombytes_witness :
    is_bytes (sample_bytes 384) 384
      ∧ poly_tobytes (poly_frombytes (sample_bytes 384)) = sample_bytes 384 :=
  ⟨by decide, poly_tobytes_frombytes (sample_bytes 384) (by decide)⟩

/-! ## Message round trip -/

/-- The value the eight `msg[i] |= t << j` steps leave in `msg[i]`. -/
theorem tomsg_fold_value (t : Nat → Nat) (ht : ∀ j, t j ≤ 1) :
    (List.range 8).foldl (fun msg j => u8 (msg ||| (t j <<< j))) 0
      = t 0 + t 1 * 2 + t 2 * 4 + t 3 * 8 + t 4 * 16 + t 5 * 32 + t 6 * 64 + t 7 * 128 := by
  have h0 := ht 0; have h1 := ht 1; have h2 := ht 2; have h3 := ht 3
  have h4 := ht 4; have h5 := ht 5; have h6 := ht 6; have h7 := ht 7
  simp only [List.range, List.range.loop, List.foldl, u8, Nat.zero_or, Nat.shiftLeft_zero]
  simp (disch := omega) only [or_shl, Nat.mod_eq_of_lt, Nat.reducePow]

/-- Coefficient `8 * i + j` of `poly_frommsg msg` is 1665 if bit `j` of byte
`i` is set and 0 otherwise. -/
theorem frommsg_coeff (msg : List Nat) (i j : Nat) (hi : i < 32) (hj : j < 8) :
    coeffs (poly_frommsg msg) (8 * i + j)
      = if (byte msg i / 2 ^ j) % 2 = 1 then 1665 else 0 := by
  unfold poly_frommsg coeffs
  rw [show KYBER_N / 8 = 32 from rfl, getD_flatMap_range _ 8 (fun _ => by simp) 0 32 i j hi hj,
    getD_map_range _ _ 8 j hj]
  simp only [cmov_int16, and_1, Nat.shiftRight_eq_div_pow]
  rfl

/-- The message bit of a coefficient of `poly_frommsg msg` is the bit it was
made from. -/
theorem tomsg_frommsg_bit (msg : List Nat) (i j : Nat) (hi : i < 32) (hj : j < 8) :
    tomsg_bit (coeffs (poly_frommsg msg) (8 * i + j)) = (byte msg i / 2 ^ j) % 2 := by
  rw [frommsg_coeff msg i j hi hj]
  have h : (byte msg i / 2 ^ j) % 2 = 0 ∨ (byte msg i / 2 ^ j) % 2 = 1 := by omega
  rcases h with h | h
  · rw [h, if_neg (by decide)]
    decide
  · rw [h, if_pos rfl]
    decide

theorem tomsg_frommsg_byte (msg : List Nat) (hb : ∀ k, byte msg k < 256) (i : Nat)
    (hi : i < 32) : byte (poly_tomsg (poly_frommsg msg)) i = byte msg i := by
  have e : byte (poly_tomsg (poly_frommsg msg)) i
      = (List.range 8).foldl (fun m j =>
          u8 (m ||| (tomsg_bit (coeffs (poly_frommsg msg) (8 * i + j)) <<< j))) 0 := by
    unfold poly_tomsg byte
    exact getD_map_range _ 0 32 i hi
  rw [e, tomsg_fold_value (fun j => tomsg_bit (coeffs (poly_frommsg msg) (8 * i + j)))
    (fun j => tomsg_bit_le _)]
  have h := hb i
  have t0 := tomsg_frommsg_bit msg i 0 hi (by decide)
  have t1 := tomsg_frommsg_bit msg i 1 hi (by decide)
  have t2 := tomsg_frommsg_bit msg i 2 hi (by decide)
  have t3 := tomsg_frommsg_bit msg i 3 hi (by decide)
  have t4 := tomsg_frommsg_bit msg i 4 hi (by decide)
  have t5 := tomsg_frommsg_bit msg i 5 hi (by decide)
  have t6 := tomsg_frommsg_bit msg i 6 hi (by decide)
  have t7 := tomsg_frommsg_bit msg i 7 hi (by decide)
  simp only [Nat.add_zero, Nat.reducePow] at t0 t1 t2 t3 t4 t5 t6 t7 ⊢
  rw [t0, t1, t2, t3, t4, t5, t6, t7]
  omega

/-- C25: for every 32-byte message m, `poly_tomsg (poly_frommsg m) = m`,
where `poly_frommsg` maps bit j of byte i to coefficient 8i+j, which is
(q+1)/2 = 1665 if the bit is 1 and 0 otherwise (`cmov_int16 r v b` being
"r := v if b = 1"). -/
theorem poly_tomsg_frommsg (m : List Nat) (hm : is_bytes m 32) :
    poly_tomsg (poly_frommsg m) = m
      ∧ ∀ i j, i < 32 → j < 8 →
          coeffs (poly_frommsg m) (8 * i + j)
            = if (byte m i / 2 ^ j) % 2 = 1 then 1665 else 0 := by
  refine ⟨?_, fun i j hi hj => frommsg_coeff m i j hi hj⟩
  have hlen : (poly_tomsg (poly_frommsg m)).length = 32 := by
    unfold poly_tomsg
    rw [List.length_map, List.length_range]
    rfl
  apply list_eq_of_byte_eq _ _ (by rw [hlen, hm.1])
  intro k hk
  rw [hlen] at hk
  exact tomsg_frommsg_byte m (byte_lt_of_is_bytes m _ hm) k hk

set_option maxRecDepth 100000 in
theorem poly_tomsg_frommsg_witness :
    is_bytes (sample_bytes 32) 32
      ∧ poly_tomsg (poly_frommsg (sample_bytes 32)) = sample_bytes 32
      ∧ coeffs (poly_frommsg (sample_bytes 32)) 0 = 1665
      ∧ coeffs (poly_frommsg (sample_bytes 32)) 2 = 0 :=
  ⟨by decide, (poly_tomsg_frommsg (sample_bytes 32) (by decide)).1, by decide, by decide⟩

/-! ## The samplers `cbd4` and `cbd5` -/

/-- The 4-bit field of the masked sum of `cbd4` at byte `j` is the sum of
the two nibbles of byte `j` of the loaded word, modulo 16. -/
theorem cbd4_field (t j : Nat) (hj : j < 4) :
    ((((t &&& 0x0F0F0F0F) + ((t >>> 4) &&& 0x0F0F0F0F)) % 2 ^ 32) >>> (8 * j)) &&& 0xF
      = ((t / 2 ^ (8 * j)) % 16 + (t / 2 ^ (8 * j + 4)) % 16) % 16 := by
  obtain ⟨a1, a2⟩ := and_mask_window t 0x0F0F0F0F (8 * j) 4
  obtain ⟨b1, b2⟩ := and_mask_window (t >>> 4) 0x0F0F0F0F (8 * j) 4
  have la : t &&& 0x0F0F0F0F ≤ 0x0F0F0F0F := Nat.and_le_right
  have lb : (t >>> 4) &&& 0x0F0F0F0F ≤ 0x0F0F0F0F := Nat.and_le_right
  have hM : 3 * (0x0F0F0F0F % 2 ^ (8 * j)) < 2 ^ (8 * j) := by interval_cases j <;> decide
  have e4 : (t >>> 4) / 2 ^ (8 * j) = t / 2 ^ (8 * j + 4) := by
    rw [Nat.shiftRight_eq_div_pow, Nat.div_div_eq_div_mul, ← Nat.pow_add, Nat.add_comm]
  rw [e4] at b2
  generalize t &&& 0x0F0F0F0F = A at a1 a2 la ⊢
  generalize (t >>> 4) &&& 0x0F0F0F0F = B at b1 b2 lb ⊢
  have h1 : (A + B) % 2 ^ 32 = A + B := Nat.mod_eq_of_lt (by omega)
  have h2 : (A + B) / 2 ^ (8 * j) = A / 2 ^ (8 * j) + B / 2 ^ (8 * j) := by
    have h := add3_div A B 0 (2 ^ (8 * j)) (Nat.pow_pos (by decide))
      (by rw [Nat.zero_mod]; omega)
    rw [Nat.zero_div, Nat.add_zero, Nat.add_zero] at h
    exact h
  rw [h1, and_15, Nat.shiftRight_eq_div_pow, h2]
  generalize A / 2 ^ (8 * j) = A2 at a2 ⊢
  generalize B / 2 ^ (8 * j) = B2 at b2 ⊢
  generalize t / 2 ^ (8 * j) = T1 at a2 ⊢
  generalize t / 2 ^ (8 * j + 4) = T2 at b2 ⊢
  have m15 : (0x0F0F0F0F / 2 ^ (8 * j)) % 2 ^ 4 = 15 := by interval_cases j <;> decide
  rw [m15, and_15] at a2 b2
  clear a1 b1 la lb hM h1 h2
  omega

/-- Byte `j` of the loaded word and its two nibbles. -/
theorem load32_nibbles (buf : List Nat) (hb : ∀ k, byte buf k < 256) (off j : Nat)
    (hj : j < 4) :
    (load32_littleendian buf off / 2 ^ (8 * j)) % 16 = byte buf (off + j) % 16
      ∧ (load32_littleendian buf off / 2 ^ (8 * j + 4)) % 16 = byte buf (off + j) / 16 := by
  have h0 := hb off; have h1 := hb (off + 1); have h2 := hb (off + 2); have h3 := hb (off + 3)
  rw [load32_eq buf hb off]
  interval_cases j <;> simp only [Nat.add_zero, Nat.reduceMul, Nat.reduceAdd, Nat.reducePow] <;>
    omega

/-- The last three statements of the inner loop of `cbd4`, on a 4-bit `a`,
depend only on `a mod 4`. -/
theorem cbd4_scalar_residue (a : Nat) (ha : a < 16) :
    ((((a + 2) >>> 2 : Nat) : Int) - (((a &&& 0x3) + ((a >>> 2) &&& 0x3) : Nat) : Int))
      = cbd4_of_residue (a % 4) := by
  interval_cases a <;> decide

theorem cbd4_coeff (buf : List Nat) (hb : ∀ k, byte buf k < 256) (i j : Nat) (hi : i < 64)
    (hj : j < 4) :
    coeffs (cbd4 buf) (4 * i + j)
      = cbd4_of_residue ((byte buf (4 * i + j) % 16 + byte buf (4 * i + j) / 16) % 4) := by
  obtain ⟨n1, n2⟩ := load32_nibbles buf hb (4 * i) j hj
  unfold cbd4 coeffs
  rw [show KYBER_N / 4 = 64 from rfl, getD_flatMap_range _ 4 (fun _ => by simp) 0 64 i j hi hj,
    getD_map_range _ _ 4 j hj]
  simp only []
  rw [cbd4_field _ j hj, n1, n2, cbd4_scalar_residue _ (Nat.mod_lt _ (by decide)),
    Nat.mod_mod_of_dvd _ (by decide : 4 ∣ 16)]

/-- C26: for every 256-byte input buffer, every coefficient produced by `cbd4`
lies in {-2, -1, 0}, so the sampler never outputs a positive coefficient, and
coefficient k depends only on (low nibble + high nibble of input byte k)
mod 4: it is 0, -1, -1, -2 for the residues 0, 1, 2, 3. -/
theorem cbd4_nonpositive (buf : List Nat) (hbuf : is_bytes buf 256) (k : Nat) (hk : k < 256) :
    (coeffs (cbd4 buf) k = -2 ∨ coeffs (cbd4 buf) k = -1 ∨ coeffs (cbd4 buf) k = 0)
      ∧ coeffs (cbd4 buf) k
          = cbd4_of_residue ((byte buf k % 16 + byte buf k / 16) % 4)
      ∧ ∀ buf2 : List Nat, is_bytes buf2 256 → ∀ k2, k2 < 256 →
          (byte buf k % 16 + byte buf k / 16) % 4 = (byte buf2 k2 % 16 + byte buf2 k2 / 16) % 4 →
          coeffs (cbd4 buf) k = coeffs (cbd4 buf2) k2 := by
  have hk4 : k = 4 * (k / 4) + k % 4 := by omega
  have e := cbd4_coeff buf (byte_lt_of_is_bytes buf _ hbuf) (k / 4) (k % 4) (by omega) (by omega)
  rw [← hk4] at e
  refine ⟨?_, e, ?_⟩
  · rw [e]
    unfold cbd4_of_residue
    split_ifs <;> simp
  · intro buf2 hbuf2 k2 hk2 hr
    have hk24 : k2 = 4 * (k2 / 4) + k2 % 4 := by omega
    have e2 := cbd4_coeff buf2 (byte_lt_of_is_bytes buf2 _ hbuf2) (k2 / 4) (k2 % 4) (by omega)
      (by omega)
    rw [← hk24] at e2
    rw [e, e2, hr]

set_option maxRecDepth 100000 in
theorem cbd4_nonpositive_witness :
    is_bytes (sample_bytes 256) 256
      ∧ coeffs (cbd4 (sample_bytes 256)) 0 = -2
      ∧ coeffs (cbd4 (sample_bytes 256)) 0
          = cbd4_of_residue ((byte (sample_bytes 256) 0 % 16 + byte (sample_bytes 256) 0 / 16) % 4) :=
  ⟨by decide, by decide, (cbd4_nonpositive (sample_bytes 256) (by decide) 0 (by decide)).2.1⟩

theorem cbd5_congr (buf buf2 : List Nat) (h : ∀ k, k < 160 → byte buf k = byte buf2 k) :
    cbd5 buf = cbd5 buf2 := by
  unfold cbd5
  apply List.flatMap_congr
  intro i hi
  rw [show KYBER_N / 8 = 32 from rfl, List.mem_range] at hi
  apply List.map_congr_left
  intro j hj
  rw [List.mem_range] at hj
  simp only []
  rw [h (5 * (8 * i + j) / 8) (by omega)]
  by_cases hs : 5 * (8 * i + j) % 8 > 3
  · rw [if_pos hs, if_pos hs, h (5 * (8 * i + j) / 8 + 1) (by omega)]
  · rw [if_neg hs, if_neg hs]

/-- C27: `cbd5` reads only the first 160 bytes of its 320-byte input buffer:
every index it accesses (offset and offset+1) is at most 159, so for any two
buffers that agree on bytes 0..159 the output polynomials are equal, and
every output coefficient lies in [-2, 3]. -/
theorem cbd5_reads_first_160 (buf buf2 : List Nat) (hbuf : is_bytes buf 320)
    (hbuf2 : is_bytes buf2 320) (h : ∀ k, k < 160 → byte buf k = byte buf2 k) :
    (∀ k ∈ cbd5_reads, k ≤ 159)
      ∧ cbd5 buf = cbd5 buf2
      ∧ ∀ k, k < 256 → -2 ≤ coeffs (cbd5 buf) k ∧ coeffs (cbd5 buf) k ≤ 3 := by
  have _h1 : buf.length = 320 := hbuf.1
  have _h2 : buf2.length = 320 := hbuf2.1
  refine ⟨?_, cbd5_congr buf buf2 h, ?_⟩
  · intro k hk
    simp only [cbd5_reads, List.mem_flatMap, List.mem_range] at hk
    obtain ⟨i, hi, j, hj, hk⟩ := hk
    rw [show KYBER_N / 8 = 32 from rfl] at hi
    split_ifs at hk with hs
    · simp only [List.mem_cons, List.mem_singleton, List.not_mem_nil, or_false] at hk
      omega
    · simp only [List.mem_cons, List.mem_singleton, List.not_mem_nil, or_false] at hk
      omega
  · intro k hk
    have hk8 : k = 8 * (k / 8) + k % 8 := by omega
    have r := cbd5_range buf (k / 8) (k % 8) (by omega) (by omega)
    rw [← hk8] at r
    exact r

set_option maxRecDepth 100000 in
theorem cbd5_reads_first_160_witness :
    is_bytes (sample_bytes 320) 320
      ∧ is_bytes (sample_bytes 160 ++ List.replicate 160 0) 320
      ∧ sample_bytes 320 ≠ sample_bytes 160 ++ List.replicate 160 0
      ∧ cbd5 (sample_bytes 320) = cbd5 (sample_bytes 160 ++ List.replicate 160 0) :=
  ⟨by decide, by decide, by decide,
    (cbd5_reads_first_160 (sample_bytes 320) (sample_bytes 160 ++ List.replicate 160 0)
      (by decide) (by decide) (by decide)).2.1⟩

/-! ## Compression undoes decompression -/

/-- Compressing the decompression of a `d`-bit code gives the code back. -/
theorem compress_decompress_code (d : Nat) (hd : d = 3 ∨ d = 4 ∨ d = 5 ∨ d = 6) (c : Nat)
    (hc : c < 2 ^ d) : compress_code d (decompress_code d c) = c := by
  have hr := decompress_code_range d hd c hc
  have e : decompress_code d c = (((c * KYBER_Q + 2 ^ (d - 1)) >>> d : Nat) : Int) := rfl
  have hn : (c * KYBER_Q + 2 ^ (d - 1)) >>> d < 3329 := by
    rw [e] at hr
    omega
  rw [e, compress_code_nat d hd _ hn]
  rcases hd with rfl | rfl | rfl | rfl <;> interval_cases c <;> decide

/-- The code `poly_compress` computes for a coefficient of
`poly_decompress b` is the field of `b` the coefficient was read from. -/
theorem compress_decompress_field (d : Nat) (hd : d = 3 ∨ d = 4 ∨ d = 5 ∨ d = 6) (b : List Nat)
    (hb : ∀ k, byte b k < 256) (k : Nat) (hk : k < 256) :
    compress_code d (coeffs (poly_decompress (32 * d) b) k)
      = ((byte b (d * k / 8) + 256 * byte b (d * k / 8 + 1)) / 2 ^ (d * k % 8)) % 2 ^ d := by
  have e : d * k = 8 * (d * k / 8) + d * k % 8 := by omega
  have hd8 : d ≤ 8 := by omega
  rw [decompress_coeff d hd b hb k hk,
    compress_decompress_code d hd _ (stream_field_lt b hb _ d hd8)]
  conv_lhs => rw [e]
  exact stream_field_window b hb _ _ d (by omega) hd8


/-- The bytes `pack_96` writes for the eight 3-bit fields of three bytes
are those three bytes. -/
theorem pack_96_window (x0 x1 x2 x3 : Nat) (h0 : x0 < 256) (h1 : x1 < 256) (h2 : x2 < 256)
    (t : Nat → Nat)
    (t0 : t 0 = ((x0 + 256 * x1) / 2 ^ 0) % 2 ^ 3)
    (t1 : t 1 = ((x0 + 256 * x1) / 2 ^ 3) % 2 ^ 3)
    (t2 : t 2 = ((x0 + 256 * x1) / 2 ^ 6) % 2 ^ 3)
    (t3 : t 3 = ((x1 + 256 * x2) / 2 ^ 1) % 2 ^ 3)
    (t4 : t 4 = ((x1 + 256 * x2) / 2 ^ 4) % 2 ^ 3)
    (t5 : t 5 = ((x1 + 256 * x2) / 2 ^ 7) % 2 ^ 3)
    (t6 : t 6 = ((x2 + 256 * x3) / 2 ^ 2) % 2 ^ 3)
    (t7 : t 7 = ((x2 + 256 * x3) / 2 ^ 5) % 2 ^ 3) :
    pack_96 t = [x0, x1, x2] := by
  simp only [pack_96, u8, Nat.shiftRight_eq_div_pow]
  simp (disch := omega) only [or_shl]
  generalize t 0 = a0 at *
  generalize t 1 = a1 at *
  generalize t 2 = a2 at *
  generalize t 3 = a3 at *
  generalize t 4 = a4 at *
  generalize t 5 = a5 at *
  generalize t 6 = a6 at *
  generalize t 7 = a7 at *
  simp only [Nat.reducePow] at *
  congr 1
  · omega
  congr 1
  · omega
  congr 1
  omega

/-- The bytes `pack_128` writes for the eight 4-bit fields of four bytes
are those four bytes. -/
theorem pack_128_window (x0 x1 x2 x3 x4 : Nat) (h0 : x0 < 256) (h1 : x1 < 256) (h2 : x2 < 256) (h3 : x3 < 256)
    (t : Nat → Nat)
    (t0 : t 0 = ((x0 + 256 * x1) / 2 ^ 0) % 2 ^ 4)
    (t1 : t 1 = ((x0 + 256 * x1) / 2 ^ 4) % 2 ^ 4)
    (t2 : t 2 = ((x1 + 256 * x2) / 2 ^ 0) % 2 ^ 4)
    (t3 : t 3 = ((x1 + 256 * x2) / 2 ^ 4) % 2 ^ 4)
    (t4 : t 4 = ((x2 + 256 * x3) / 2 ^ 0) % 2 ^ 4)
    (t5 : t 5 = ((x2 + 256 * x3) / 2 ^ 4) % 2 ^ 4)
    (t6 : t 6 = ((x3 + 256 * x4) / 2 ^ 0) % 2 ^ 4)
    (t7 : t 7 = ((x3 + 256 * x4) / 2 ^ 4) % 2 ^ 4) :
    pack_128 t = [x0, x1, x2, x3] := by
  simp only [pack_128, u8, Nat.shiftRight_eq_div_pow]
  simp (disch := omega) only [or_shl]
  generalize t 0 = a0 at *
  generalize t 1 = a1 at *
  generalize t 2 = a2 at *
  generalize t 3 = a3 at *
  generalize t 4 = a4 at *
  generalize t 5 = a5 at *
  generalize t 6 = a6 at *
  generalize t 7 = a7 at *
  simp only [Nat.reducePow] at *
  congr 1
  · omega
  congr 1
  · omega
  congr 1
  · omega
  congr 1
  omega

/-- The bytes `pack_160` writes for the eight 5-bit fields of five bytes
are those five bytes. -/
theorem pack_160_window (x0 x1 x2 x3 x4 x5 : Nat) (h0 : x0 < 256) (h1 : x1 < 256) (h2 : x2 < 256) (h3 : x3 < 256) (h4 : x4 < 256)
    (t : Nat → Nat)
    (t0 : t 0 = ((x0 + 256 * x1) / 2 ^ 0) % 2 ^ 5)
    (t1 : t 1 = ((x0 + 256 * x1) / 2 ^ 5) % 2 ^ 5)
    (t2 : t 2 = ((x1 + 256 * x2) / 2 ^ 2) % 2 ^ 5)
    (t3 : t 3 = ((x1 + 256 * x2) / 2 ^ 7) % 2 ^ 5)
    (t4 : t 4 = ((x2 + 256 * x3) / 2 ^ 4) % 2 ^ 5)
    (t5 : t 5 = ((x3 + 256 * x4) / 2 ^ 1) % 2 ^ 5)
    (t6 : t 6 = ((x3 + 256 * x4) / 2 ^ 6) % 2 ^ 5)
    (t7 : t 7 = ((x4 + 256 * x5) / 2 ^ 3) % 2 ^ 5) :
    pack_160 t = [x0, x1, x2, x3, x4] := by
  simp only [pack_160, u8, Nat.shiftRight_eq_div_pow]
  simp (disch := omega) only [or_shl]
  generalize t 0 = a0 at *
  generalize t 1 = a1 at *
  generalize t 2 = a2 at *
  generalize t 3 = a3 at *
  generalize t 4 = a4 at *
  generalize t 5 = a5 at *
  generalize t 6 = a6 at *
  generalize t 7 = a7 at *
  simp only [Nat.reducePow] at *
  congr 1
  · omega
  congr 1
  · omega
  congr 1
  · omega
  congr 1
  · omega
  congr 1
  omega

/-- The bytes `pack_192` writes for the four 6-bit fields of three bytes
are those three bytes. -/
theorem pack_192_window (x0 x1 x2 x3 : Nat) (h0 : x0 < 256) (h1 : x1 < 256) (h2 : x2 < 256)
    (t : Nat → Nat)
    (t0 : t 0 = ((x0 + 256 * x1) / 2 ^ 0) % 2 ^ 6)
    (t1 : t 1 = ((x0 + 256 * x1) / 2 ^ 6) % 2 ^ 6)
    (t2 : t 2 = ((x1 + 256 * x2) / 2 ^ 4) % 2 ^ 6)
    (t3 : t 3 = ((x2 + 256 * x3) / 2 ^ 2) % 2 ^ 6) :
    pack_192 t = [x0, x1, x2] := by
  simp only [pack_192, u8, Nat.shiftRight_eq_div_pow]
  simp (disch := omega) only [or_shl]
  generalize t 0 = a0 at *
  generalize t 1 = a1 at *
  generalize t 2 = a2 at *
  generalize t 3 = a3 at *
  simp only [Nat.reducePow] at *
  congr 1
  · omega
  congr 1
  · omega
  congr 1
  omega

theorem compress_decompress_96 (b : List Nat) (hb : is_bytes b 96) :
    poly_compress (32 * 3) (poly_decompress (32 * 3) b) = b := by
  have hbb := byte_lt_of_is_bytes b _ hb
  have hp : ∀ i, i < 32 →
      pack_96 (fun j => compress_code 3 (coeffs (poly_decompress (32 * 3) b) (8 * i + j)))
        = [byte b (3 * i + 0), byte b (3 * i + 1), byte b (3 * i + 2)] := by
    intro i hi
    have f : ∀ j m s, j < 8 → 3 * j / 8 = m → 3 * j % 8 = s →
        compress_code 3 (coeffs (poly_decompress (32 * 3) b) (8 * i + j))
          = ((byte b (3 * i + m) + 256 * byte b (3 * i + (m + 1))) / 2 ^ s) % 2 ^ 3 := by
      intro j m s hj hm hs
      rw [compress_decompress_field 3 (by decide) b hbb _ (by omega),
        show 3 * (8 * i + j) / 8 = 3 * i + m by omega,
        show 3 * (8 * i + j) % 8 = s by omega, Nat.add_assoc]
    exact pack_96_window (byte b (3 * i + 0)) (byte b (3 * i + 1)) (byte b (3 * i + 2)) (byte b (3 * i + 3))
      (hbb _) (hbb _) (hbb _) _
      (f 0 0 0 (by decide) (by decide) (by decide))
      (f 1 0 3 (by decide) (by decide) (by decide))
      (f 2 0 6 (by decide) (by decide) (by decide))
      (f 3 1 1 (by decide) (by decide) (by decide))
      (f 4 1 4 (by decide) (by decide) (by decide))
      (f 5 1 7 (by decide) (by decide) (by decide))
      (f 6 2 2 (by decide) (by decide) (by decide))
      (f 7 2 5 (by decide) (by decide) (by decide))
  have hlen : (poly_compress (32 * 3) (poly_decompress (32 * 3) b)).length = 96 := by
    show (poly_compress_96 _).length = 96
    rw [poly_compress_96_eq, length_flatMap_range _ 3 (fun _ => by rfl)]
  apply list_eq_of_byte_eq _ _ (by rw [hlen, hb.1])
  intro k hk
  rw [hlen] at hk
  have hk3 : k = 3 * (k / 3) + k % 3 := by omega
  have hc : k % 3 < 3 := by omega
  have hi : k / 3 < 32 := by omega
  rw [hk3]
  generalize k / 3 = i at hi
  generalize k % 3 = c at hc
  show (poly_compress_96 _).getD (3 * i + c) 0 = _
  rw [poly_compress_96_eq, getD_flatMap_range _ 3 (fun _ => by rfl) 0 32 i c hi hc,
    hp i hi]
  interval_cases c <;> rfl

theorem compress_decompress_128 (b : List Nat) (hb : is_bytes b 128) :
    poly_compress (32 * 4) (poly_decompress (32 * 4) b) = b := by
  have hbb := byte_lt_of_is_bytes b _ hb
  have hp : ∀ i, i < 32 →
      pack_128 (fun j => compress_code 4 (coeffs (poly_decompress (32 * 4) b) (8 * i + j)))
        = [byte b (4 * i + 0), byte b (4 * i + 1), byte b (4 * i + 2), byte b (4 * i + 3)] := by
    intro i hi
    have f : ∀ j m s, j < 8 → 4 * j / 8 = m → 4 * j % 8 = s →
        compress_code 4 (coeffs (poly_decompress (32 * 4) b) (8 * i + j))
          = ((byte b (4 * i + m) + 256 * byte b (4 * i + (m + 1))) / 2 ^ s) % 2 ^ 4 := by
      intro j m s hj hm hs
      rw [compress_decompress_field 4 (by decide) b hbb _ (by omega),
        show 4 * (8 * i + j) / 8 = 4 * i + m by omega,
        show 4 * (8 * i + j) % 8 = s by omega, Nat.add_assoc]
    exact pack_128_window (byte b (4 * i + 0)) (byte b (4 * i + 1)) (byte b (4 * i + 2)) (byte b (4 * i + 3)) (byte b (4 * i + 4))
      (hbb _) (hbb _) (hbb _) (hbb _) _
      (f 0 0 0 (by decide) (by decide) (by decide))
      (f 1 0 4 (by decide) (by decide) (by decide))
      (f 2 1 0 (by decide) (by decide) (by decide))
      (f 3 1 4 (by decide) (by decide) (by decide))
      (f 4 2 0 (by decide) (by decide) (by decide))
      (f 5 2 4 (by decide) (by decide) (by decide))
      (f 6 3 0 (by decide) (by decide) (by decide))
      (f 7 3 4 (by decide) (by decide) (by decide))
  have hlen : (poly_compress (32 * 4) (poly_decompress (32 * 4) b)).length = 128 := by
    show (poly_compress_128 _).length = 128
    rw [poly_compress_128_eq, length_flatMap_range _ 4 (fun _ => by rfl)]
  apply list_eq_of_byte_eq _ _ (by rw [hlen, hb.1])
  intro k hk
  rw [hlen] at hk
  have hk3 : k = 4 * (k / 4) + k % 4 := by omega
  have hc : k % 4 < 4 := by omega
  have hi : k / 4 < 32 := by omega
  rw [hk3]
  generalize k / 4 = i at hi
  generalize k % 4 = c at hc
  show (poly_compress_128 _).getD (4 * i + c) 0 = _
  rw [poly_compress_128_eq, getD_flatMap_range _ 4 (fun _ => by rfl) 0 32 i c hi hc,
    hp i hi]
  interval_cases c <;> rfl

theorem compress_decompress_160 (b : List Nat) (hb : is_bytes b 160) :
    poly_compress (32 * 5) (poly_decompress (32 * 5) b) = b := by
  have hbb := byte_lt_of_is_bytes b _ hb
  have hp : ∀ i, i < 32 →
      pack_160 (fun j => compress_code 5 (coeffs (poly_decompress (32 * 5) b) (8 * i + j)))
        = [byte b (5 * i + 0), byte b (5 * i + 1), byte b (5 * i + 2), byte b (5 * i + 3), byte b (5 * i + 4)] := by
    intro i hi
    have f : ∀ j m s, j < 8 → 5 * j / 8 = m → 5 * j % 8 = s →
        compress_code 5 (coeffs (poly_decompress (32 * 5) b) (8 * i + j))
          = ((byte b (5 * i + m) + 256 * byte b (5 * i + (m + 1))) / 2 ^ s) % 2 ^ 5 := by
      intro j m s hj hm hs
      rw [compress_decompress_field 5 (by decide) b hbb _ (by omega),
        show 5 * (8 * i + j) / 8 = 5 * i + m by omega,
        show 5 * (8 * i + j) % 8 = s by omega, Nat.add_assoc]
    exact pack_160_window (byte b (5 * i + 0)) (byte b (5 * i + 1)) (byte b (5 * i + 2)) (byte b (5 * i + 3)) (byte b (5 * i + 4)) (byte b (5 * i + 5))
      (hbb _) (hbb _) (hbb _) (hbb _) (hbb _) _
      (f 0 0 0 (by decide) (by decide) (by decide))
      (f 1 0 5 (by decide) (by decide) (by decide))
      (f 2 1 2 (by decide) (by decide) (by decide))
      (f 3 1 7 (by decide) (by decide) (by decide))
      (f 4 2 4 (by decide) (by decide) (by decide))
      (f 5 3 1 (by decide) (by decide) (by decide))
      (f 6 3 6 (by decide) (by decide) (by decide))
      (f 7 4 3 (by decide) (by decide) (by decide))
  have hlen : (poly_compress (32 * 5) (poly_decompress (32 * 5) b)).length = 160 := by
    show (poly_compress_160 _).length = 160
    rw [poly_compress_160_eq, length_flatMap_range _ 5 (fun _ => by rfl)]
  apply list_eq_of_byte_eq _ _ (by rw [hlen, hb.1])
  intro k hk
  rw [hlen] at hk
  have hk3 : k = 5 * (k / 5) + k % 5 := by omega
  have hc : k % 5 < 5 := by omega
  have hi : k / 5 < 32 := by omega
  rw [hk3]
  generalize k / 5 = i at hi
  generalize k % 5 = c at hc
  show (poly_compress_160 _).getD (5 * i + c) 0 = _
  rw [poly_compress_160_eq, getD_flatMap_range _ 5 (fun _ => by rfl) 0 32 i c hi hc,
    hp i hi]
  interval_cases c <;> rfl

theorem compress_decompress_192 (b : List Nat) (hb : is_bytes b 192) :
    poly_compress (32 * 6) (poly_decompress (32 * 6) b) = b := by
  have hbb := byte_lt_of_is_bytes b _ hb
  have hp : ∀ i, i < 64 →
      pack_192 (fun j => compress_code 6 (coeffs (poly_decompress (32 * 6) b) (4 * i + j)))
        = [byte b (3 * i + 0), byte b (3 * i + 1), byte b (3 * i + 2)] := by
    intro i hi
    have f : ∀ j m s, j < 4 → 6 * j / 8 = m → 6 * j % 8 = s →
        compress_code 6 (coeffs (poly_decompress (32 * 6) b) (4 * i + j))
          = ((byte b (3 * i + m) + 256 * byte b (3 * i + (m + 1))) / 2 ^ s) % 2 ^ 6 := by
      intro j m s hj hm hs
      rw [compress_decompress_field 6 (by decide) b hbb _ (by omega),
        show 6 * (4 * i + j) / 8 = 3 * i + m by omega,
        show 6 * (4 * i + j) % 8 = s by omega, Nat.add_assoc]
    exact pack_192_window (byte b (3 * i + 0)) (byte b (3 * i + 1)) (byte b (3 * i + 2)) (byte b (3 * i + 3))
      (hbb _) (hbb _) (hbb _) _
      (f 0 0 0 (by decide) (by decide) (by decide))
      (f 1 0 6 (by decide) (by decide) (by decide))
      (f 2 1 4 (by decide) (by decide) (by decide))
      (f 3 2 2 (by decide) (by decide) (by decide))
  have hlen : (poly_compress (32 * 6) (poly_decompress (32 * 6) b)).length = 192 := by
    show (poly_compress_192 _).length = 192
    rw [poly_compress_192_eq, length_flatMap_range _ 3 (fun _ => by rfl)]
  apply list_eq_of_byte_eq _ _ (by rw [hlen, hb.1])
  intro k hk
  rw [hlen] at hk
  have hk3 : k = 3 * (k / 3) + k % 3 := by omega
  have hc : k % 3 < 3 := by omega
  have hi : k / 3 < 64 := by omega
  rw [hk3]
  generalize k / 3 = i at hi
  generalize k % 3 = c at hc
  show (poly_compress_192 _).getD (3 * i + c) 0 = _
  rw [poly_compress_192_eq, getD_flatMap_range _ 3 (fun _ => by rfl) 0 64 i c hi hc,
    hp i hi]
  interval_cases c <;> rfl

/-- C23: for each build width d in {3, 4, 5, 6} and every byte string b of
the compressed length 32*d, `poly_compress (poly_decompress b) = b`:
compression exactly undoes decompression. -/
theorem poly_compress_undoes_decompress (d : Nat) (hd : d = 3 ∨ d = 4 ∨ d = 5 ∨ d = 6) (b : List Nat)
    (hb : is_bytes b (32 * d)) :
    poly_compress (32 * d) (poly_decompress (32 * d) b) = b := by
  rcases hd with rfl | rfl | rfl | rfl
  · exact compress_decompress_96 b hb
  · exact compress_decompress_128 b hb
  · exact compress_decompress_160 b hb
  · exact compress_decompress_192 b hb

set_option maxRecDepth 100000 in
theorem poly_compress_undoes_decompress_witness :
    is_bytes (sample_bytes 160) (32 * 5)
      ∧ poly_compress (32 * 5) (poly_decompress (32 * 5) (sample_bytes 160)) = sample_bytes 160 :=
  ⟨by decide, poly_compress_undoes_decompress 5 (by decide) (sample_bytes 160) (by decide)⟩

end Kyber

namespace Dilithium

/-! ## Mode dispatch of the Dilithium tools -/

/-- C19: for each name s in {"baseline", "option1", "option2"},
`get_implementation (parse_mode s)` is a table entry (not NULL) whose name is
s and whose mode field equals `parse_mode s`; for every other string
`parse_mode` returns -1; and `get_implementation` returns NULL for every mode
value outside {0, 1, 2}. -/
theorem dispatch_table_consistent :
    (∀ s : String, s ∈ ["baseline", "option1", "option2"] →
        ∃ e, get_implementation (parse_mode s) = some e ∧ e.name = s ∧ e.mode = parse_mode s)
      ∧ (∀ s : String, s ∉ ["baseline", "option1", "option2"] → parse_mode s = -1)
      ∧ (∀ mode : Int, mode ≠ 0 → mode ≠ 1 → mode ≠ 2 → get_implementation mode = none) := by
  refine ⟨?_, ?_, ?_⟩
  · intro s hs
    simp only [List.mem_cons, List.mem_singleton, List.mem_nil_iff, or_false] at hs
    rcases hs with rfl | rfl | rfl
    · exact ⟨_, rfl, rfl, rfl⟩
    · exact ⟨_, rfl, rfl, rfl⟩
    · exact ⟨_, rfl, rfl, rfl⟩
  · intro s hs
    simp only [List.mem_cons, List.mem_singleton, List.mem_nil_iff, or_false, not_or] at hs
    unfold parse_mode
    rw [if_neg hs.1, if_neg hs.2.1, if_neg hs.2.2]
  · intro mode h0 h1 h2
    unfold get_implementation
    rw [if_neg (by omega)]

theorem dispatch_table_consistent_witness :
    (∃ e, get_implementation (parse_mode "option2") = some e ∧ e.name = "option2"
        ∧ e.mode = parse_mode "option2")
      ∧ parse_mode "fast" = -1
      ∧ get_implementation (parse_mode "fast") = none
      ∧ get_implementation 3 = none :=
  ⟨dispatch_table_consistent.1 "option2" (by decide),
    dispatch_table_consistent.2.1 "fast" (by decide),
    dispatch_table_consistent.2.2 (parse_mode "fast") (by decide) (by decide) (by decide),
    dispatch_table_consistent.2.2 3 (by decide) (by decide) (by decide)⟩

/-- C17 (evaluation at the failing input): for every key size and message,
`cli_sign -m option1` and `cli_sign -m option2` with a key file of the right
size sign with `pqcrystals_dilithium3_ref_signature`, the routine of the
baseline mode, and exit with status 0, while the table entries of these modes
sign with `crypto_sign_signature_tweaked` and
`crypto_sign_signature_tweaked_prob`. -/
theorem cli_sign_ignores_mode (n : Nat) (msg : List Nat) :
    cli_sign_main n (some "option1") (some msg) (some (List.replicate n 0)) true true
        = ⟨0, some .pqcrystals_dilithium3_ref_signature⟩
      ∧ cli_sign_main n (some "option2") (some msg) (some (List.replicate n 0)) true true
        = ⟨0, some .pqcrystals_dilithium3_ref_signature⟩
      ∧ cli_sign_main n (some "baseline") (some msg) (some (List.replicate n 0)) true true
        = ⟨0, some .pqcrystals_dilithium3_ref_signature⟩
      ∧ (get_implementation (parse_mode "baseline")).map (fun e => e.sign.calls)
        = some .pqcrystals_dilithium3_ref_signature
      ∧ (get_implementation (parse_mode "option1")).map (fun e => e.sign.calls)
        = some .crypto_sign_signature_tweaked
      ∧ (get_implementation (parse_mode "option2")).map (fun e => e.sign.calls)
        = some .crypto_sign_signature_tweaked_prob := by
  refine ⟨?_, ?_, ?_, by decide, by decide, by decide⟩ <;>
    simp [cli_sign_main, parse_mode, MODE_BASELINE, MODE_OPTION1, MODE_OPTION2]

end Dilithium
